import Mathlib

/-!
Verification development for the `submap` crate: a segmented match trie for
publish/subscribe topic matching (`src/submap.rs`), the formula mini-language
used for numeric segment matching (`src/mkmf.rs`), the broadcast fan-out map
(`src/broadcastmap.rs`) and the single-client ACL map (`src/aclmap.rs`).

The crate's `types` module is not present in the sources; following the
crate's use sites, `Map<K, V>` / `Set<V>` are ordered collections with
content equality, which we embed as association lists / duplicate-free
lists with Rust-faithful operation semantics, and the `Client` bound is
embedded as `DecidableEq`.  The crate's `Error` enum is likewise embedded
from its single use in `mkmf.rs`: one variant `FormulaParseError` carrying
a message string.
-/

namespace Submap

/-! ### Association-list maps and list sets (embedding of `Map`/`Set`) -/

section Colls

variable {K V C : Type} [DecidableEq K] [DecidableEq C]

/-- `Map::get`: the value at the first occurrence of key `k`. -/
def getV : List (K × V) → K → Option V
  | [], _ => none
  | p :: l, k => if p.1 = k then some p.2 else getV l k

/-- In-place update (`get_mut` success path): replace the value at the first
occurrence of key `k`. -/
def updV : List (K × V) → K → V → List (K × V)
  | [], _, _ => []
  | p :: l, k, v => if p.1 = k then (k, v) :: l else p :: updV l k v

/-- `Map::insert` for a key known to be absent: append the new binding. -/
def pushV (l : List (K × V)) (k : K) (v : V) : List (K × V) :=
  l ++ [(k, v)]

/-- `Map::remove`: drop the first occurrence of key `k`. -/
def eraseV : List (K × V) → K → List (K × V)
  | [], _ => []
  | p :: l, k => if p.1 = k then l else p :: eraseV l k

/-- `Set::insert`: add an element unless already present. -/
def insC (c : C) (l : List C) : List C :=
  if c ∈ l then l else l ++ [c]

/-- `Set::remove`: drop the first occurrence of an element. -/
def ersC (c : C) : List C → List C
  | [] => []
  | x :: l => if x = c then l else x :: ersC c l

/-- `result.extend(other)`: insert every element of `other` into `acc`. -/
def extSet (acc : List C) (l : List C) : List C :=
  l.foldl (fun a x => insC x a) acc

@[simp] theorem mem_insC {c x : C} {l : List C} : x ∈ insC c l ↔ x ∈ l ∨ x = c := by
  unfold insC
  by_cases h : c ∈ l
  · simp only [if_pos h]
    exact ⟨Or.inl, fun hx => hx.elim id (fun he => he ▸ h)⟩
  · simp [if_neg h]

@[simp] theorem mem_extSet {x : C} {l : List C} : ∀ {acc : List C},
    x ∈ extSet acc l ↔ x ∈ acc ∨ x ∈ l := by
  induction l with
  | nil => intro acc; simp [extSet]
  | cons y l ih =>
      intro acc
      have h1 : extSet acc (y :: l) = extSet (insC y acc) l := rfl
      rw [h1, ih, mem_insC, List.mem_cons]
      tauto

theorem ersC_insC {c : C} {l : List C} (h : c ∉ l) : ersC c (insC c l) = l := by
  have h1 : insC c l = l ++ [c] := by simp [insC, h]
  rw [h1]
  clear h1
  induction l with
  | nil => simp [ersC]
  | cons x l ih =>
      rw [List.mem_cons, not_or] at h
      have hx : x ≠ c := fun hh => h.1 hh.symm
      have h2 : ersC c ((x :: l) ++ [c]) = x :: ersC c (l ++ [c]) := by
        simp [ersC, hx]
      rw [h2, ih h.2]

theorem mem_ersC {x c : C} {l : List C} (hnd : l.Nodup) :
    x ∈ ersC c l ↔ x ∈ l ∧ x ≠ c := by
  induction l with
  | nil => simp [ersC]
  | cons y l ih =>
      rw [List.nodup_cons] at hnd
      obtain ⟨hy, hnd⟩ := hnd
      by_cases hyc : y = c
      · subst hyc
        simp only [ersC, if_pos rfl]
        constructor
        · intro hx
          refine ⟨List.mem_cons_of_mem _ hx, ?_⟩
          intro he
          exact hy (he ▸ hx)
        · rintro ⟨hx, hne⟩
          rcases List.mem_cons.1 hx with rfl | hx
          · exact absurd rfl hne
          · exact hx
      · simp only [ersC, if_neg hyc, List.mem_cons]
        rw [ih hnd]
        constructor
        · rintro (rfl | ⟨h1, h2⟩)
          · exact ⟨Or.inl rfl, hyc⟩
          · exact ⟨Or.inr h1, h2⟩
        · rintro ⟨rfl | h1, h2⟩
          · exact Or.inl rfl
          · exact Or.inr ⟨h1, h2⟩

theorem getV_updV_self {l : List (K × V)} {k : K} {v : V}
    (h : getV l k = some v) : updV l k v = l := by
  induction l with
  | nil => simp [updV]
  | cons p l ih =>
      obtain ⟨a, b⟩ := p
      by_cases hp : a = k
      · subst hp
        have h2 : b = v := by simpa [getV] using h
        subst h2
        simp [updV]
      · simp only [getV, if_neg hp] at h
        simp [updV, hp, ih h]

theorem getV_updV_eq {l : List (K × V)} {k : K} {v w : V}
    (h : getV l k = some w) : getV (updV l k v) k = some v := by
  induction l with
  | nil => simp [getV] at h
  | cons p l ih =>
      by_cases hp : p.1 = k
      · simp [updV, hp, getV]
      · simp only [getV, if_neg hp] at h
        simp [getV, updV, hp, ih h]

theorem getV_updV_ne {l : List (K × V)} {k k' : K} {v : V} (h : k ≠ k') :
    getV (updV l k v) k' = getV l k' := by
  induction l with
  | nil => simp [updV]
  | cons p l ih =>
      by_cases hp : p.1 = k
      · subst hp
        simp [updV, getV, h]
      · simp only [updV, if_neg hp, getV]
        split
        · rfl
        · exact ih

theorem getV_pushV_eq {l : List (K × V)} {k : K} {v : V} (h : getV l k = none) :
    getV (pushV l k v) k = some v := by
  induction l with
  | nil => simp [getV, pushV]
  | cons p l ih =>
      by_cases hp : p.1 = k
      · simp [getV, hp] at h
      · simp only [getV, if_neg hp] at h
        have h2 : pushV (p :: l) k v = p :: pushV l k v := rfl
        rw [h2]
        simp only [getV, if_neg hp]
        exact ih h

theorem getV_pushV_ne {l : List (K × V)} {k k' : K} {v : V} (h : k ≠ k') :
    getV (pushV l k v) k' = getV l k' := by
  induction l with
  | nil => simp [getV, pushV, h]
  | cons p l ih =>
      have h2 : pushV (p :: l) k v = p :: pushV l k v := rfl
      rw [h2]
      simp only [getV]
      split
      · rfl
      · exact ih

theorem eraseV_pushV {l : List (K × V)} {k : K} {v : V} (h : getV l k = none) :
    eraseV (pushV l k v) k = l := by
  induction l with
  | nil => simp [pushV, eraseV]
  | cons p l ih =>
      by_cases hp : p.1 = k
      · simp [getV, hp] at h
      · simp only [getV, if_neg hp] at h
        have h2 : eraseV (pushV (p :: l) k v) k = p :: eraseV (pushV l k v) k := by
          simp [pushV, eraseV, hp]
        rw [h2, ih h]

end Colls

/-! ### Splitting a string by the separator (`str::split(char)`) -/

/-- Core of `str::split(sep)` over the character list: returns the first
segment and the remaining segments. -/
def splitCore (sep : Char) : List Char → List Char × List (List Char)
  | [] => ([], [])
  | c :: rest =>
      let r := splitCore sep rest
      if c = sep then ([], r.1 :: r.2) else (c :: r.1, r.2)

/-- `str::split(sep)` on a character list; always returns at least one
(possibly empty) segment, like Rust's `split`. -/
def splitL (sep : Char) (l : List Char) : List (List Char) :=
  (splitCore sep l).1 :: (splitCore sep l).2

/-- `topic.split(sep)` as a list of segment strings. -/
def splitStr (sep : Char) (s : String) : List String :=
  (splitL sep s.data).map fun l => ⟨l⟩

/-- Joining with the separator, inverse of `splitL`. -/
def joinL (sep : Char) : List (List Char) → List Char
  | [] => []
  | [x] => x
  | x :: y :: r => x ++ sep :: joinL sep (y :: r)

theorem joinL_splitL (sep : Char) (l : List Char) : joinL sep (splitL sep l) = l := by
  induction l with
  | nil => rfl
  | cons c rest ih =>
      have hsplit : splitL sep rest = (splitCore sep rest).1 :: (splitCore sep rest).2 := rfl
      by_cases hc : c = sep
      · have h1 : splitL sep (c :: rest) = [] :: splitL sep rest := by
          simp [splitL, splitCore, hc]
        rw [h1, hsplit]
        have h2 : joinL sep ([] :: (splitCore sep rest).1 :: (splitCore sep rest).2)
            = sep :: joinL sep ((splitCore sep rest).1 :: (splitCore sep rest).2) := rfl
        rw [h2, ← hsplit, ih, hc]
      · have h1 : splitL sep (c :: rest)
            = (c :: (splitCore sep rest).1) :: (splitCore sep rest).2 := by
          simp [splitL, splitCore, hc]
        rw [hsplit] at ih
        rw [h1]
        cases h3 : (splitCore sep rest).2 with
        | nil =>
            rw [h3] at ih
            have h4 : joinL sep [(splitCore sep rest).1] = (splitCore sep rest).1 := rfl
            rw [h4] at ih
            show c :: (splitCore sep rest).1 = c :: rest
            rw [ih]
        | cons y r =>
            rw [h3] at ih
            have h4 : joinL sep ((splitCore sep rest).1 :: y :: r)
                = (splitCore sep rest).1 ++ sep :: joinL sep (y :: r) := rfl
            rw [h4] at ih
            show (c :: (splitCore sep rest).1) ++ sep :: joinL sep (y :: r) = c :: rest
            rw [List.cons_append, ih]

theorem splitL_injective (sep : Char) {l₁ l₂ : List Char}
    (h : splitL sep l₁ = splitL sep l₂) : l₁ = l₂ := by
  have := joinL_splitL sep l₁
  rw [h, joinL_splitL] at this
  exact this.symm

theorem splitStr_injective (sep : Char) {s₁ s₂ : String}
    (h : splitStr sep s₁ = splitStr sep s₂) : s₁ = s₂ := by
  unfold splitStr at h
  have hdata : splitL sep s₁.data = splitL sep s₂.data := by
    have hm : ∀ l : List (List Char),
        (l.map fun x => (⟨x⟩ : String)).map String.data = l := by
      intro l; induction l with
      | nil => rfl
      | cons x r ih => simp [ih]
    have := congrArg (List.map String.data) h
    rwa [hm, hm] at this
  cases s₁ with
  | mk d₁ =>
      cases s₂ with
      | mk d₂ => exact congrArg String.mk (splitL_injective sep hdata)

/-! ### `i64` parsing (`str::parse::<i64>()`) -/

/-- Accumulate decimal digits; fails on any non-digit character. -/
def digitsAux : Nat → List Char → Option Nat
  | acc, [] => some acc
  | acc, c :: rest =>
      if c.isDigit then digitsAux (acc * 10 + (c.toNat - 48)) rest else none

/-- Value of a non-empty all-digit character list. -/
def digitsVal : List Char → Option Nat
  | [] => none
  | l => digitsAux 0 l

/-- `str::parse::<i64>()`: optional sign, one or more decimal digits, value
within the `i64` range; anything else is an error (`none`). -/
def parseI64 (s : String) : Option Int :=
  match s.data with
  | '+' :: rest =>
      (digitsVal rest).bind fun n =>
        if n ≤ 2 ^ 63 - 1 then some (Int.ofNat n) else none
  | '-' :: rest =>
      (digitsVal rest).bind fun n =>
        if n ≤ 2 ^ 63 then some (-(Int.ofNat n)) else none
  | l =>
      (digitsVal l).bind fun n =>
        if n ≤ 2 ^ 63 - 1 then some (Int.ofNat n) else none

/-! ### The formula mini-language (`src/mkmf.rs`) -/

/-- The crate's `Error` enum (declared in the crate root, used by `mkmf.rs`):
a single variant carrying the parse-error message. -/
inductive Error where
  | FormulaParseError (msg : String)
deriving DecidableEq, Repr

/-- `FormulaCalc`: the numeric predicate kinds. -/
inductive FormulaCalc where
  | eq (n : Int)
  | ne (n : Int)
  | gt (n : Int)
  | lt (n : Int)
  | ge (n : Int)
  | le (n : Int)
  | ri (a b : Int)
deriving DecidableEq, Repr

/-- `Formula`: an optional literal prefix plus a numeric predicate. -/
structure Formula where
  pfx : Option String
  fcalc : FormulaCalc
deriving DecidableEq, Repr

/-- `str::strip_prefix`: the remainder of `s` after `p`, when `s` starts
with `p`. -/
def stripPfx (p s : String) : Option String :=
  if p.data.isPrefixOf s.data then some ⟨s.data.drop p.data.length⟩ else none

/-- `FormulaCalc::matches`: parse the value as `i64` and compare; an
unparseable value matches only `ne`. -/
def FormulaCalc.matches (f : FormulaCalc) (value : String) : Bool :=
  match parseI64 value with
  | none =>
      match f with
      | .ne _ => true
      | _ => false
  | some v =>
      match f with
      | .eq n => v = n
      | .ne n => v ≠ n
      | .gt n => v > n
      | .lt n => v < n
      | .ge n => v ≥ n
      | .le n => v ≤ n
      | .ri a b => v ≥ a ∧ v ≤ b

/-- `Formula::matches`: strip the optional prefix (failing the match when it
is absent from the value), then apply the numeric predicate. -/
def Formula.matches (f : Formula) (value : String) : Bool :=
  match f.pfx with
  | some p =>
      match stripPfx p value with
      | none => false
      | some v => f.fcalc.matches v
  | none => f.fcalc.matches value

/-- First piece of `s.split(ch)` and the rest of the string when `ch`
occurs (`Split::next` twice, specialised to what the parser consumes). -/
def breakOn (ch : Char) : List Char → List Char × Option (List Char)
  | [] => ([], none)
  | c :: rest =>
      if c = ch then ([], some rest)
      else
        let r := breakOn ch rest
        (c :: r.1, r.2)

/-- `value.split("..")`: split on the first two consecutive dots, repeatedly. -/
def splitDots : List Char → List (List Char)
  | [] => [[]]
  | '.' :: '.' :: rest => [] :: splitDots rest
  | c :: rest =>
      match splitDots rest with
      | [] => [[c]]
      | s :: ss => (c :: s) :: ss

/-- Modelled from the spec: the message of Rust's `ParseIntError` shown when
an `i64` argument fails to parse (`std` behaviour, external to the crate);
only its presence matters to the crate's error text. -/
def intErrMsg (s : String) : String :=
  match s.data with
  | [] => "cannot parse integer from empty string"
  | ['+'] => "cannot parse integer from empty string"
  | ['-'] => "cannot parse integer from empty string"
  | _ => "invalid digit found in string"

/-- Parse an `i64` argument, with the crate's error message on failure
(the `parse_val!` macro of `FormulaCalc::from_str`). -/
def parseVal (s whole : String) : Except Error Int :=
  match parseI64 s with
  | some v => .ok v
  | none => .error (.FormulaParseError
      ("formula value parse error in " ++ whole ++ ": " ++ intErrMsg s))

/-- `FromStr for FormulaCalc`: `func(arg)` with `func ∈ {eq,ne,gt,lt,ge,le,ri}`
and `arg` an integer (or `low..high` for `ri`). -/
def FormulaCalc.fromStr (s : String) : Except Error FormulaCalc :=
  let r := breakOn '(' s.data
  let kind : String := ⟨r.1⟩
  match r.2 with
  | none => .error (.FormulaParseError ("value not defined in " ++ s))
  | some rest =>
      let value : String := ⟨(breakOn '(' rest).1⟩
      match value.data.getLast? with
      | some ')' =>
          let value : String := ⟨value.data.dropLast⟩
          match kind with
          | "eq" => (parseVal value s).map .eq
          | "ne" => (parseVal value s).map .ne
          | "gt" => (parseVal value s).map .gt
          | "lt" => (parseVal value s).map .lt
          | "ge" => (parseVal value s).map .ge
          | "le" => (parseVal value s).map .le
          | "ri" =>
              match splitDots value.data with
              | [] => .error (.FormulaParseError
                  ("range first value not defined in " ++ s))
              | [f1] =>
                  match parseVal ⟨f1⟩ s with
                  | .error e => .error e
                  | .ok _ => .error (.FormulaParseError
                      ("range second value not defined in " ++ s))
              | f1 :: f2 :: _ =>
                  match parseVal ⟨f1⟩ s with
                  | .error e => .error e
                  | .ok v1 =>
                      match parseVal ⟨f2⟩ s with
                      | .error e => .error e
                      | .ok v2 => .ok (.ri v1 v2)
          | v => .error (.FormulaParseError
              ("unknown function in " ++ s ++ ": " ++ v))
      | _ => .error (.FormulaParseError ("bracket not closed in " ++ s))

/-- `FromStr for Formula`: `prefix#func(arg)` with the prefix optional
(`splitn(2, '#')`). -/
def Formula.fromStr (s : String) : Except Error Formula :=
  let r := breakOn '#' s.data
  match r.2 with
  | some rest =>
      (FormulaCalc.fromStr (String.mk rest)).map fun c =>
        Formula.mk (some (String.mk r.1)) c
  | none => (FormulaCalc.fromStr (String.mk r.1)).map fun c => Formula.mk none c

/-- `values_match_key_formula`: the child nodes of map entries whose keys
match the given formula text (empty when the formula does not parse). -/
def valuesMatchKeyFormula {V : Type} (m : List (String × V)) (formula : String) :
    List V :=
  match Formula.fromStr formula with
  | .ok f => (m.filter fun p => f.matches p.1).map fun p => p.2
  | .error _ => []

/-! ### Regex engine (external `regex` crate, parameterised) -/

/-- The external `regex` crate, abstracted: which pattern strings compile,
and which values a compiled pattern matches.  `Regex::as_str` returns the
original pattern, so a compiled regex is identified by its source text. -/
structure RegexEngine where
  compiles : String → Bool
  isMatch : String → String → Bool

/-- A degenerate engine for configurations that use no regex prefix. -/
def noRegex : RegexEngine := ⟨fun _ => false, fun _ _ => false⟩

/-! ### The subscription trie (`Subscription<C>` in `src/submap.rs`) -/

/-- `Subscription<C>`: one trie node.  Fields in source order:
`subscribers`, `subtopics`, `subtopics_by_formula`, `subtopics_by_regex`
(keyed by the regex source text), `subtopics_any` and `sub_any`. -/
inductive Sub (C : Type) where
  | mk (subscribers : List C) (subtopics : List (String × Sub C))
      (subByFormula : List (Formula × Sub C)) (subByRegex : List (String × Sub C))
      (subtopicsAny : Option (Sub C)) (subAny : List C)

/-- `Subscription::default()`. -/
def Sub.empty {C : Type} : Sub C := .mk [] [] [] [] none []

/-- `Subscription::is_empty`. -/
def Sub.isEmptyS {C : Type} : Sub C → Bool
  | .mk subs st bf br sa wa =>
      subs.isEmpty && st.isEmpty && bf.isEmpty && br.isEmpty && sa.isNone && wa.isEmpty

/-- `subscribers` field. -/
def Sub.subscribers {C : Type} : Sub C → List C
  | .mk subs _ _ _ _ _ => subs

/-- `subtopics` field. -/
def Sub.subtopics {C : Type} : Sub C → List (String × Sub C)
  | .mk _ st _ _ _ _ => st

/-- `subtopics_by_formula` field. -/
def Sub.subByFormula {C : Type} : Sub C → List (Formula × Sub C)
  | .mk _ _ bf _ _ _ => bf

/-- `subtopics_by_regex` field. -/
def Sub.subByRegex {C : Type} : Sub C → List (String × Sub C)
  | .mk _ _ _ br _ _ => br

/-- `subtopics_any` field. -/
def Sub.subtopicsAny {C : Type} : Sub C → Option (Sub C)
  | .mk _ _ _ _ sa _ => sa

/-- `sub_any` field. -/
def Sub.subAny {C : Type} : Sub C → List C
  | .mk _ _ _ _ _ wa => wa

section Trie

variable {C : Type} [DecidableEq C]

/-- `subscribe_rec`: descend along the pattern's segments, growing the trie,
and insert the client at the terminal (in `sub_any` for a wildcard segment,
`subscribers` at segment exhaustion).  A formula segment that fails to parse
or a regex segment that fails to compile silently aborts the insertion. -/
def subscribeRec (E : RegexEngine) (wc ma : List String) (fp rp : Option String) :
    Sub C → List String → C → Sub C
  | nd, [], c =>
      .mk (insC c nd.subscribers) nd.subtopics nd.subByFormula nd.subByRegex
        nd.subtopicsAny nd.subAny
  | nd, t :: sp, c =>
      if t ∈ wc then
        .mk nd.subscribers nd.subtopics nd.subByFormula nd.subByRegex
          nd.subtopicsAny (insC c nd.subAny)
      else if t ∈ ma then
        match nd.subtopicsAny with
        | some sub =>
            .mk nd.subscribers nd.subtopics nd.subByFormula nd.subByRegex
              (some (subscribeRec E wc ma fp rp sub sp c)) nd.subAny
        | none =>
            .mk nd.subscribers nd.subtopics nd.subByFormula nd.subByRegex
              (some (subscribeRec E wc ma fp rp Sub.empty sp c)) nd.subAny
      else
        match fp.bind fun p => stripPfx p t with
        | some fstr =>
            match Formula.fromStr fstr with
            | .error _ => nd
            | .ok f =>
                match getV nd.subByFormula f with
                | some sub =>
                    .mk nd.subscribers nd.subtopics
                      (updV nd.subByFormula f (subscribeRec E wc ma fp rp sub sp c))
                      nd.subByRegex nd.subtopicsAny nd.subAny
                | none =>
                    .mk nd.subscribers nd.subtopics
                      (pushV nd.subByFormula f (subscribeRec E wc ma fp rp Sub.empty sp c))
                      nd.subByRegex nd.subtopicsAny nd.subAny
        | none =>
            match rp.bind fun p => stripPfx p t with
            | some rstr =>
                if E.compiles rstr then
                  match getV nd.subByRegex rstr with
                  | some sub =>
                      .mk nd.subscribers nd.subtopics nd.subByFormula
                        (updV nd.subByRegex rstr (subscribeRec E wc ma fp rp sub sp c))
                        nd.subtopicsAny nd.subAny
                  | none =>
                      .mk nd.subscribers nd.subtopics nd.subByFormula
                        (pushV nd.subByRegex rstr (subscribeRec E wc ma fp rp Sub.empty sp c))
                        nd.subtopicsAny nd.subAny
                else nd
            | none =>
                match getV nd.subtopics t with
                | some sub =>
                    .mk nd.subscribers
                      (updV nd.subtopics t (subscribeRec E wc ma fp rp sub sp c))
                      nd.subByFormula nd.subByRegex nd.subtopicsAny nd.subAny
                | none =>
                    .mk nd.subscribers
                      (pushV nd.subtopics t (subscribeRec E wc ma fp rp Sub.empty sp c))
                      nd.subByFormula nd.subByRegex nd.subtopicsAny nd.subAny

/-- `unsubscribe_rec`: mirror of `subscribe_rec`, pruning children that
become empty. -/
def unsubscribeRec (E : RegexEngine) (wc ma : List String) (fp rp : Option String) :
    Sub C → List String → C → Sub C
  | nd, [], c =>
      .mk (ersC c nd.subscribers) nd.subtopics nd.subByFormula nd.subByRegex
        nd.subtopicsAny nd.subAny
  | nd, t :: sp, c =>
      if t ∈ wc then
        .mk nd.subscribers nd.subtopics nd.subByFormula nd.subByRegex
          nd.subtopicsAny (ersC c nd.subAny)
      else if t ∈ ma then
        match nd.subtopicsAny with
        | some sub =>
            let s2 := unsubscribeRec E wc ma fp rp sub sp c
            if s2.isEmptyS then
              .mk nd.subscribers nd.subtopics nd.subByFormula nd.subByRegex none nd.subAny
            else
              .mk nd.subscribers nd.subtopics nd.subByFormula nd.subByRegex
                (some s2) nd.subAny
        | none => nd
      else
        match fp.bind fun p => stripPfx p t with
        | some fstr =>
            match Formula.fromStr fstr with
            | .error _ => nd
            | .ok f =>
                match getV nd.subByFormula f with
                | some sub =>
                    let s2 := unsubscribeRec E wc ma fp rp sub sp c
                    if s2.isEmptyS then
                      .mk nd.subscribers nd.subtopics (eraseV nd.subByFormula f)
                        nd.subByRegex nd.subtopicsAny nd.subAny
                    else
                      .mk nd.subscribers nd.subtopics (updV nd.subByFormula f s2)
                        nd.subByRegex nd.subtopicsAny nd.subAny
                | none => nd
        | none =>
            match rp.bind fun p => stripPfx p t with
            | some rstr =>
                if E.compiles rstr then
                  match getV nd.subByRegex rstr with
                  | some sub =>
                      let s2 := unsubscribeRec E wc ma fp rp sub sp c
                      if s2.isEmptyS then
                        .mk nd.subscribers nd.subtopics nd.subByFormula
                          (eraseV nd.subByRegex rstr) nd.subtopicsAny nd.subAny
                      else
                        .mk nd.subscribers nd.subtopics nd.subByFormula
                          (updV nd.subByRegex rstr s2) nd.subtopicsAny nd.subAny
                  | none => nd
                else nd
            | none =>
                match getV nd.subtopics t with
                | some sub =>
                    let s2 := unsubscribeRec E wc ma fp rp sub sp c
                    if s2.isEmptyS then
                      .mk nd.subscribers (eraseV nd.subtopics t) nd.subByFormula
                        nd.subByRegex nd.subtopicsAny nd.subAny
                    else
                      .mk nd.subscribers (updV nd.subtopics t s2) nd.subByFormula
                        nd.subByRegex nd.subtopicsAny nd.subAny
                | none => nd

/-- `get_subscribers_rec`: collect the members of every node reachable under
the matching rules into the accumulator.  While a segment remains, the
node's `sub_any` (wildcard members) is always unioned; at exhaustion only
`subscribers` is. -/
def getSubscribersRec (E : RegexEngine) (fp rp : Option String) :
    Sub C → List String → List C → List C
  | nd, [], acc => extSet acc nd.subscribers
  | nd, t :: sp, acc =>
      let a1 := extSet acc nd.subAny
      let a2 :=
        match fp.bind fun p => stripPfx p t with
        | some fstr =>
            (valuesMatchKeyFormula nd.subtopics fstr).foldl
              (fun a sub => getSubscribersRec E fp rp sub sp a) a1
        | none =>
            match rp.bind fun p => stripPfx p t with
            | some rstr =>
                if E.compiles rstr then
                  (nd.subtopics.filter fun q => E.isMatch rstr q.1).foldl
                    (fun a q => getSubscribersRec E fp rp q.2 sp a) a1
                else a1
            | none =>
                match getV nd.subtopics t with
                | some sub => getSubscribersRec E fp rp sub sp a1
                | none => a1
      let a3 :=
        if nd.subByFormula.isEmpty then a2
        else (nd.subByFormula.filter fun q => q.1.matches t).foldl
          (fun a q => getSubscribersRec E fp rp q.2 sp a) a2
      let a4 :=
        if nd.subByRegex.isEmpty then a3
        else (nd.subByRegex.filter fun q => E.isMatch q.1 t).foldl
          (fun a q => getSubscribersRec E fp rp q.2 sp a) a3
      match nd.subtopicsAny with
      | some sub => getSubscribersRec E fp rp sub sp a4
      | none => a4

/-- `is_subscribed_rec`: the same traversal as `get_subscribers_rec`,
short-circuiting true as soon as any member would be collected. -/
def isSubscribedRec (E : RegexEngine) (fp rp : Option String) :
    Sub C → List String → Bool
  | nd, [] => !nd.subscribers.isEmpty
  | nd, t :: sp =>
      if !nd.subAny.isEmpty then true
      else
        let b1 :=
          match fp.bind fun p => stripPfx p t with
          | some fstr =>
              (valuesMatchKeyFormula nd.subtopics fstr).any fun sub =>
                isSubscribedRec E fp rp sub sp
          | none =>
              match rp.bind fun p => stripPfx p t with
              | some rstr =>
                  if E.compiles rstr then
                    nd.subtopics.any fun q =>
                      E.isMatch rstr q.1 && isSubscribedRec E fp rp q.2 sp
                  else false
              | none =>
                  match getV nd.subtopics t with
                  | some sub => isSubscribedRec E fp rp sub sp
                  | none => false
        b1 || (nd.subByFormula.any fun q => q.1.matches t && isSubscribedRec E fp rp q.2 sp)
          || (nd.subByRegex.any fun q => E.isMatch q.1 t && isSubscribedRec E fp rp q.2 sp)
          || (match nd.subtopicsAny with
              | some sub => isSubscribedRec E fp rp sub sp
              | none => false)

end Trie

/-! ### `SubMap<C>` (the main facade, `src/submap.rs`) -/

/-- `SubMap<C>`: trie, reverse index `subscribed_topics`, live count and
configuration. -/
structure SubMapSt (C : Type) where
  subscriptions : Sub C
  subscribedTopics : List (C × List String)
  subscriptionCount : Nat
  separator : Char
  fpfx : Option String
  rpfx : Option String
  matchAny : List String
  wildcard : List String

section SubMapOps

variable {C : Type} [DecidableEq C]

/-- `SubMap::new()` / `Default`: separator `/`, match-any `{"?"}`,
wildcard `{"*"}`, no formula or regex prefix. -/
def SubMapSt.new : SubMapSt C :=
  ⟨Sub.empty, [], 0, '/', none, none, ["?"], ["*"]⟩

/-- Builder `separator`. -/
def SubMapSt.setSeparator (m : SubMapSt C) (c : Char) : SubMapSt C :=
  { m with separator := c }

/-- Builder `formula_prefix`. -/
def SubMapSt.setFormulaPfx (m : SubMapSt C) (p : String) : SubMapSt C :=
  { m with fpfx := some p }

/-- Builder `regex_prefix`. -/
def SubMapSt.setRegexPfx (m : SubMapSt C) (p : String) : SubMapSt C :=
  { m with rpfx := some p }

/-- Builder `wildcard`. -/
def SubMapSt.setWildcard (m : SubMapSt C) (w : String) : SubMapSt C :=
  { m with wildcard := [w] }

/-- Builder `match_any`. -/
def SubMapSt.setMatchAny (m : SubMapSt C) (w : String) : SubMapSt C :=
  { m with matchAny := [w] }

/-- `register_client`: true when newly registered. -/
def SubMapSt.registerClient (m : SubMapSt C) (c : C) : Bool × SubMapSt C :=
  match getV m.subscribedTopics c with
  | some _ => (false, m)
  | none => (true, { m with subscribedTopics := pushV m.subscribedTopics c [] })

/-- `unregister_client`: remove the client and every subscription it owns.
The per-iteration `subscription_count -= 1` is summed into one subtraction. -/
def SubMapSt.unregisterClient (E : RegexEngine) (m : SubMapSt C) (c : C) :
    Bool × SubMapSt C :=
  match getV m.subscribedTopics c with
  | none => (false, m)
  | some topics =>
      (true, { m with
        subscribedTopics := eraseV m.subscribedTopics c
        subscriptions := topics.foldl
          (fun nd t => unsubscribeRec E m.wildcard m.matchAny m.fpfx m.rpfx nd
            (splitStr m.separator t) c) m.subscriptions
        subscriptionCount := m.subscriptionCount - topics.length })

/-- `subscribe`: false when the client is unregistered; otherwise insert the
pattern unless it is already held by the client. -/
def SubMapSt.subscribe (E : RegexEngine) (m : SubMapSt C) (topic : String) (c : C) :
    Bool × SubMapSt C :=
  match getV m.subscribedTopics c with
  | none => (false, m)
  | some topics =>
      if topic ∈ topics then (true, m)
      else
        (true, { m with
          subscriptions := subscribeRec E m.wildcard m.matchAny m.fpfx m.rpfx
            m.subscriptions (splitStr m.separator topic) c
          subscribedTopics := updV m.subscribedTopics c (insC topic topics)
          subscriptionCount := m.subscriptionCount + 1 })

/-- `unsubscribe`: false when the client is unregistered; an unknown pattern
is a no-op. -/
def SubMapSt.unsubscribe (E : RegexEngine) (m : SubMapSt C) (topic : String) (c : C) :
    Bool × SubMapSt C :=
  match getV m.subscribedTopics c with
  | none => (false, m)
  | some topics =>
      if topic ∈ topics then
        (true, { m with
          subscriptions := unsubscribeRec E m.wildcard m.matchAny m.fpfx m.rpfx
            m.subscriptions (splitStr m.separator topic) c
          subscribedTopics := updV m.subscribedTopics c (ersC topic topics)
          subscriptionCount := m.subscriptionCount - 1 })
      else (true, m)

/-- `unsubscribe_all`: drop every subscription of a registered client,
keeping the client registered. -/
def SubMapSt.unsubscribeAll (E : RegexEngine) (m : SubMapSt C) (c : C) :
    Bool × SubMapSt C :=
  match getV m.subscribedTopics c with
  | none => (false, m)
  | some topics =>
      (true, { m with
        subscriptions := topics.foldl
          (fun nd t => unsubscribeRec E m.wildcard m.matchAny m.fpfx m.rpfx nd
            (splitStr m.separator t) c) m.subscriptions
        subscribedTopics := updV m.subscribedTopics c []
        subscriptionCount := m.subscriptionCount - topics.length })

/-- `get_subscribers`. -/
def SubMapSt.getSubscribers (E : RegexEngine) (m : SubMapSt C) (topic : String) :
    List C :=
  getSubscribersRec E m.fpfx m.rpfx m.subscriptions (splitStr m.separator topic) []

/-- `is_subscribed`. -/
def SubMapSt.isSubscribed (E : RegexEngine) (m : SubMapSt C) (topic : String) : Bool :=
  isSubscribedRec E m.fpfx m.rpfx m.subscriptions (splitStr m.separator topic)

/-- `list_topics`. -/
def SubMapSt.listTopics (m : SubMapSt C) (c : C) : List String :=
  (getV m.subscribedTopics c).getD []

/-- `list_clients`. -/
def SubMapSt.listClients (m : SubMapSt C) : List C :=
  m.subscribedTopics.map fun p => p.1

/-- `client_count`. -/
def SubMapSt.clientCount (m : SubMapSt C) : Nat :=
  m.subscribedTopics.length

/-- `is_empty`. -/
def SubMapSt.isEmptyM (m : SubMapSt C) : Bool :=
  m.subscribedTopics.isEmpty

end SubMapOps

/-! ### `BroadcastMap<C>` (`src/broadcastmap.rs`) -/

/-- `Broadcast<C>`: one trie node with literal children, a mirrored
`childs_any` subtree, exact members and the upward-accumulated wildcard
member set. -/
inductive Bc (C : Type) where
  | mk (childs : List (String × Bc C)) (childsAny : Option (Bc C))
      (members : List C) (membersWildcard : List C)

/-- `Broadcast::default()`. -/
def Bc.empty {C : Type} : Bc C := .mk [] none [] []

/-- `Broadcast::is_empty` (checks literal children and exact members only). -/
def Bc.isEmptyB {C : Type} : Bc C → Bool
  | .mk ch _ mem _ => ch.isEmpty && mem.isEmpty

/-- `childs` field. -/
def Bc.childs {C : Type} : Bc C → List (String × Bc C)
  | .mk ch _ _ _ => ch

/-- `childs_any` field. -/
def Bc.childsAny {C : Type} : Bc C → Option (Bc C)
  | .mk _ ca _ _ => ca

/-- `members` field. -/
def Bc.members {C : Type} : Bc C → List C
  | .mk _ _ mem _ => mem

/-- `members_wildcard` field. -/
def Bc.membersWildcard {C : Type} : Bc C → List C
  | .mk _ _ _ mw => mw

section BcOps

variable {C : Type} [DecidableEq C]

/-- `register_broadcast_client_rec`: at every step insert the client into
`members_wildcard`, recurse into the literal child for the segment AND into
the `childs_any` mirror (creating either as needed); insert into `members`
at exhaustion. -/
def registerBcRec : Bc C → List String → C → Bc C
  | nd, [], c => .mk nd.childs nd.childsAny (insC c nd.members) nd.membersWildcard
  | nd, s :: sp, c =>
      let ch2 :=
        match getV nd.childs s with
        | some b => updV nd.childs s (registerBcRec b sp c)
        | none => pushV nd.childs s (registerBcRec Bc.empty sp c)
      let ca2 :=
        match nd.childsAny with
        | some b => some (registerBcRec b sp c)
        | none => some (registerBcRec Bc.empty sp c)
      .mk ch2 ca2 nd.members (insC c nd.membersWildcard)

/-- `unregister_broadcast_client_rec`: mirror of registration, pruning
children that report empty. -/
def unregisterBcRec : Bc C → List String → C → Bc C
  | nd, [], c => .mk nd.childs nd.childsAny (ersC c nd.members) nd.membersWildcard
  | nd, s :: sp, c =>
      let ch2 :=
        match getV nd.childs s with
        | some b =>
            let b2 := unregisterBcRec b sp c
            if b2.isEmptyB then eraseV nd.childs s else updV nd.childs s b2
        | none => nd.childs
      let ca2 :=
        match nd.childsAny with
        | some b =>
            let b2 := unregisterBcRec b sp c
            if b2.isEmptyB then none else some b2
        | none => none
      .mk ch2 ca2 nd.members (ersC c nd.membersWildcard)

/-- `get_broadcast_clients_rec`: a wildcard mask segment collects
`members_wildcard` and stops; a match-any segment descends only into
`childs_any`; otherwise descend into the literal child; at mask exhaustion
collect `members`. -/
def getBcRec (wc ma : List String) : Bc C → List String → List C → List C
  | nd, [], acc => extSet acc nd.members
  | nd, s :: sp, acc =>
      if s ∈ wc then extSet acc nd.membersWildcard
      else if s ∈ ma then
        match nd.childsAny with
        | some b => getBcRec wc ma b sp acc
        | none => acc
      else
        match getV nd.childs s with
        | some b => getBcRec wc ma b sp acc
        | none => acc

/-- `BroadcastMap<C>`. -/
structure BcMapSt (C : Type) where
  broadcasts : Bc C
  separator : Char
  matchAny : List String
  wildcard : List String

/-- `BroadcastMap::new()` / `Default`: separator `.`, match-any `{"?"}`,
wildcard `{"*"}`. -/
def BcMapSt.new : BcMapSt C := ⟨Bc.empty, '.', ["?"], ["*"]⟩

/-- Builder `separator`. -/
def BcMapSt.setSeparator (m : BcMapSt C) (c : Char) : BcMapSt C :=
  { m with separator := c }

/-- `register_client`. -/
def BcMapSt.registerClient (m : BcMapSt C) (name : String) (c : C) : BcMapSt C :=
  { m with broadcasts := registerBcRec m.broadcasts (splitStr m.separator name) c }

/-- `unregister_client`. -/
def BcMapSt.unregisterClient (m : BcMapSt C) (name : String) (c : C) : BcMapSt C :=
  { m with broadcasts := unregisterBcRec m.broadcasts (splitStr m.separator name) c }

/-- `get_clients_by_mask`. -/
def BcMapSt.getClientsByMask (m : BcMapSt C) (mask : String) : List C :=
  getBcRec m.wildcard m.matchAny m.broadcasts (splitStr m.separator mask) []

end BcOps

/-! ### `AclMap` (`src/aclmap.rs`) -/

/-- `AclMap`: a `SubMap<()>` holding the allowed patterns. -/
structure AclMapSt where
  smap : SubMapSt Unit

/-- `Default::default()` for `AclMap` (derived): a default `SubMap<()>`
with NO registered client. -/
def AclMapSt.mkDefault : AclMapSt := ⟨SubMapSt.new⟩

/-- `AclMap::new()`: the default map with the unit client pre-registered. -/
def AclMapSt.mkNew : AclMapSt := ⟨(SubMapSt.new.registerClient ()).2⟩

/-- `AclMap::insert`: subscribe the unit client (its returned flag is
dropped by the source; we expose the underlying call separately). -/
def AclMapSt.insert (E : RegexEngine) (m : AclMapSt) (topic : String) : AclMapSt :=
  ⟨(m.smap.subscribe E topic ()).2⟩

/-- `AclMap::matches`. -/
def AclMapSt.matches (E : RegexEngine) (m : AclMapSt) (topic : String) : Bool :=
  m.smap.isSubscribed E topic

/-- `AclMap::list`. -/
def AclMapSt.list (m : AclMapSt) : List String :=
  m.smap.listTopics ()


/-- `is_subscribed_rec` on the default (empty) trie node is false for every
topic. -/
theorem isSubscribedRec_empty {C : Type} [DecidableEq C] (E : RegexEngine)
    (fp rp : Option String) (sp : List String) :
    isSubscribedRec E fp rp (Sub.empty (C := C)) sp = false := by
  cases sp with
  | nil => rfl
  | cons t sp =>
      simp only [isSubscribedRec]
      cases hf : fp.bind fun p => stripPfx p t with
      | some fstr =>
          cases hc : Formula.fromStr fstr with
          | ok f =>
              simp [hf, hc, Sub.empty, Sub.subAny, Sub.subtopics, Sub.subByFormula,
                Sub.subByRegex, Sub.subtopicsAny, valuesMatchKeyFormula]
          | error e =>
              simp [hf, hc, Sub.empty, Sub.subAny, Sub.subtopics, Sub.subByFormula,
                Sub.subByRegex, Sub.subtopicsAny, valuesMatchKeyFormula]
      | none =>
          cases hr : rp.bind fun p => stripPfx p t with
          | some rstr =>
              simp [hf, hr, Sub.empty, Sub.subAny, Sub.subtopics, Sub.subByFormula,
                Sub.subByRegex, Sub.subtopicsAny, getV]
          | none =>
              simp [hf, hr, Sub.empty, Sub.subAny, Sub.subtopics, Sub.subByFormula,
                Sub.subByRegex, Sub.subtopicsAny, getV]

/-! ## Claim C1: end-to-end MQTT-style scenario -/

/-- The C1 scenario state: separator `/`, match-any `+`, wildcard `#`;
clients 1 and 2 registered; 1 subscribed to `unit/tests/#`, 2 to `unit/+/#`. -/
def c1State : SubMapSt Nat :=
  let m := (SubMapSt.new.setMatchAny "+").setWildcard "#"
  let m := (m.registerClient 1).2
  let m := (m.registerClient 2).2
  let m := (m.subscribe noRegex "unit/tests/#" 1).2
  (m.subscribe noRegex "unit/+/#" 2).2

/-- C1: with separator `/`, match-any `+`, wildcard `#`, after subscribing
client 1 to `unit/tests/#` and client 2 to `unit/+/#`, `get_subscribers`
returns the empty set for `unit` and for `unit/tests`, and exactly
the set of clients 1 and 2 for `unit/tests/xxx` and `unit/tests/xxx/yyy`. -/
theorem c1_end_to_end :
    c1State.getSubscribers noRegex "unit" = []
    ∧ c1State.getSubscribers noRegex "unit/tests" = []
    ∧ c1State.getSubscribers noRegex "unit/tests/xxx" = [1, 2]
    ∧ c1State.getSubscribers noRegex "unit/tests/xxx/yyy" = [1, 2] := by
  decide

/-! ## Claim C2: wildcard members during collection -/

/-- The C2 counterexample state: client 1 subscribed to `unit/tests/#`
(prefix `unit/tests` followed by the wildcard token). -/
def c2State : SubMapSt Nat :=
  let m := (SubMapSt.new.setMatchAny "+").setWildcard "#"
  let m := (m.registerClient 1).2
  (m.subscribe noRegex "unit/tests/#" 1).2

/-- C2 counterexample: client 1 is subscribed to the pattern made of the
prefix `unit/tests` followed by the wildcard token, yet `get_subscribers`
on the topic equal to that prefix itself does NOT include client 1 (the
collection does not union `sub_any` at the node where the topic's segments
are exhausted). -/
theorem c2_prefix_topic_excluded :
    c2State.listTopics 1 = ["unit/tests/#"]
    ∧ ¬ (1 ∈ c2State.getSubscribers noRegex "unit/tests") := by
  decide

/-! ## Claim C8: formula evaluation on unparseable segments -/

/-- The value a formula's predicate is applied to: the segment itself when
no prefix is configured, otherwise the segment with the prefix stripped. -/
def stripRes (f : Formula) (s : String) : Option String :=
  match f.pfx with
  | some p => stripPfx p s
  | none => some s

/-- Whether a predicate is the `ne` kind. -/
def isNeCalc : FormulaCalc → Bool
  | .ne _ => true
  | _ => false

/-- C8: for every parsed formula and segment, if the segment (after
stripping the prefix, which must match exactly — a prefix mismatch yields
false) does not parse as a 64-bit signed integer, `Formula::matches`
returns true exactly for the `ne` kind and false for all others. -/
theorem c8_unparseable_segment (f : Formula) (s v : String) :
    (stripRes f s = none → f.matches s = false)
    ∧ (stripRes f s = some v → parseI64 v = none → f.matches s = isNeCalc f.fcalc) := by
  obtain ⟨pf, fc⟩ := f
  cases pf with
  | none =>
      constructor
      · intro h
        simp [stripRes] at h
      · intro h hparse
        obtain rfl : s = v := by simpa [stripRes] using h
        show FormulaCalc.matches fc s = isNeCalc fc
        unfold FormulaCalc.matches
        rw [hparse]
        cases fc <;> rfl
  | some p =>
      constructor
      · intro h
        simp only [stripRes] at h
        show (match stripPfx p s with
          | none => false
          | some w => FormulaCalc.matches fc w) = false
        rw [h]
      · intro h hparse
        simp only [stripRes] at h
        show (match stripPfx p s with
          | none => false
          | some w => FormulaCalc.matches fc w) = isNeCalc fc
        rw [h]
        show FormulaCalc.matches fc v = isNeCalc fc
        unfold FormulaCalc.matches
        rw [hparse]
        cases fc <;> rfl

theorem c8_unparseable_segment_witness :
    stripRes (Formula.mk (some "a") (FormulaCalc.ne 3)) "axx" = some "xx"
    ∧ parseI64 "xx" = none
    ∧ (Formula.mk (some "a") (FormulaCalc.ne 3)).matches "axx"
        = isNeCalc (FormulaCalc.ne 3) :=
  ⟨by decide, by decide,
    (c8_unparseable_segment (Formula.mk (some "a") (FormulaCalc.ne 3)) "axx" "xx").2
      (by decide) (by decide)⟩

/-! ## Claim C10: `AclMap` built via `Default` has no registered client -/

/-- C10: an `AclMap` from `Default::default()` has no registered unit
client: every `insert` is a silent no-op (the underlying `subscribe`
returns false and changes nothing) and every `matches` is false; an
`AclMap` from `AclMap::new()` has the unit client pre-registered, so
`insert` records the pattern. -/
theorem c10_default_acl_inert :
    (∀ (E : RegexEngine) (p : String),
      (AclMapSt.mkDefault.smap.subscribe E p ()) = (false, AclMapSt.mkDefault.smap))
    ∧ (∀ (E : RegexEngine) (p : String),
      AclMapSt.insert E AclMapSt.mkDefault p = AclMapSt.mkDefault)
    ∧ (∀ (E : RegexEngine) (t : String),
      AclMapSt.matches E AclMapSt.mkDefault t = false)
    ∧ (∀ (E : RegexEngine) (p : String),
      (AclMapSt.insert E AclMapSt.mkNew p).list = [p]) := by
  refine ⟨?_, ?_, ?_, ?_⟩
  · intro E p
    rfl
  · intro E p
    rfl
  · intro E t
    exact isSubscribedRec_empty (C := Unit) E none none (splitStr '/' t)
  · intro E p
    show (((AclMapSt.mkNew.smap.subscribe E p ()).2).listTopics ()) = [p]
    simp [AclMapSt.mkNew, SubMapSt.registerClient, SubMapSt.subscribe, SubMapSt.new,
      getV, pushV, SubMapSt.listTopics, updV, insC]

/-! ## Claim C5 (counterexample part) -/

/-- The C5 counterexample state: a `BroadcastMap` with separator `/`,
client 1 registered at name `a`. -/
def c5State : BcMapSt Nat :=
  (BcMapSt.new.setSeparator '/').registerClient "a" 1

/-- C5 counterexample: after `register_client("a", 1)`, the mask `a/*`
(name followed by separator and wildcard) does NOT include client 1:
`members_wildcard` of the node at path `a` holds only clients registered
at strict descendants, not the client registered at `a` itself. -/
theorem c5_own_path_not_in_wildcard :
    c5State.getClientsByMask "a/*" = []
    ∧ ¬ (1 ∈ c5State.getClientsByMask "a/*") := by
  decide


/-! ## Claim C9: formula parse errors -/

/-- The function-name part of a formula body (before the first `(`). -/
def fKind (s : String) : String := ⟨(breakOn '(' s.data).1⟩

/-- What follows the first `(` of a formula body, when one exists. -/
def fRest (s : String) : Option (List Char) := (breakOn '(' s.data).2

/-- The argument part (up to the next `(` or the end), before the closing
bracket is checked. -/
def fValRaw (rest : List Char) : List Char := (breakOn '(' rest).1

/-- A parse of the formula body failed with the crate's single error kind. -/
def isErr (s : String) : Prop :=
  ∃ m, FormulaCalc.fromStr s = .error (.FormulaParseError m)

/-- `parseVal` only fails with a `FormulaParseError` whose message embeds the
whole offending input. -/
theorem parseVal_error_carries {v s m : String}
    (h : parseVal v s = .error (.FormulaParseError m)) : s.data <:+: m.data := by
  unfold parseVal at h
  cases hp : parseI64 v with
  | some n => rw [hp] at h; exact absurd h (by simp)
  | none =>
      rw [hp] at h
      simp only [Except.error.injEq, Error.FormulaParseError.injEq] at h
      subst h
      refine ⟨("formula value parse error in " : String).data,
        (": " ++ intErrMsg v).data, ?_⟩
      rw [← String.data_append, ← String.data_append]
      simp [String.append_assoc]

/-- A string is an infix of `a ++ s ++ b`. -/
theorem infix_wrap (a s b : String) : s.data <:+: (a ++ s ++ b).data :=
  ⟨a.data, b.data, by rw [← String.data_append, ← String.data_append]⟩

/-- A string is an infix of `a ++ s`. -/
theorem infix_wrapl (a s : String) : s.data <:+: (a ++ s).data :=
  ⟨a.data, [], by simp [← String.data_append]⟩

/-- A string is an infix of `a ++ s ++ b ++ c`. -/
theorem infix_wrap2 (a s b c : String) : s.data <:+: (a ++ s ++ b ++ c).data :=
  ⟨a.data, b.data ++ c.data, by
    rw [← String.data_append, ← String.data_append, ← String.data_append]
    simp⟩

/-- If mapping over an `Except` yields the crate's error, so did the
original computation. -/
theorem map_error_inv {e : Except Error Int} {f : Int → FormulaCalc} {m : String}
    (h : e.map f = .error (.FormulaParseError m)) :
    e = .error (.FormulaParseError m) := by
  cases e with
  | ok v => simp [Except.map] at h
  | error err => simpa [Except.map] using h

/-- C9: each defect — missing `(`, unclosed `)`, unknown function name,
non-integer argument (plain or range bound), missing range bound — makes
`FormulaCalc::from_str` return an error (never a success, never a panic),
always of the single `FormulaParseError` kind, and every such error's
message carries the offending input as a substring. -/
theorem c9_parse_errors :
    (∀ s m, FormulaCalc.fromStr s = .error (.FormulaParseError m) →
        s.data <:+: m.data)
    ∧ (∀ s, fRest s = none → isErr s)
    ∧ (∀ s rest, fRest s = some rest → (fValRaw rest).getLast? ≠ some ')' → isErr s)
    ∧ (∀ s rest, fRest s = some rest → (fValRaw rest).getLast? = some ')' →
        fKind s ∉ (["eq", "ne", "gt", "lt", "ge", "le", "ri"] : List String) → isErr s)
    ∧ (∀ s rest, fRest s = some rest → (fValRaw rest).getLast? = some ')' →
        fKind s ∈ (["eq", "ne", "gt", "lt", "ge", "le"] : List String) →
        parseI64 ⟨(fValRaw rest).dropLast⟩ = none → isErr s)
    ∧ (∀ s rest f1, fRest s = some rest → (fValRaw rest).getLast? = some ')' →
        fKind s = "ri" → splitDots (fValRaw rest).dropLast = [f1] → isErr s)
    ∧ (∀ s rest f1 f2 fr, fRest s = some rest → (fValRaw rest).getLast? = some ')' →
        fKind s = "ri" → splitDots (fValRaw rest).dropLast = f1 :: f2 :: fr →
        (parseI64 ⟨f1⟩ = none ∨ parseI64 ⟨f2⟩ = none) → isErr s) := by
  refine ⟨?_, ?_, ?_, ?_, ?_, ?_, ?_⟩
  · intro s m h
    simp only [FormulaCalc.fromStr] at h
    split at h
    · simp only [Except.error.injEq, Error.FormulaParseError.injEq] at h
      subst h
      exact infix_wrapl "value not defined in " s
    · split at h
      · split at h
        · exact parseVal_error_carries (map_error_inv h)
        · exact parseVal_error_carries (map_error_inv h)
        · exact parseVal_error_carries (map_error_inv h)
        · exact parseVal_error_carries (map_error_inv h)
        · exact parseVal_error_carries (map_error_inv h)
        · exact parseVal_error_carries (map_error_inv h)
        · split at h
          · simp only [Except.error.injEq, Error.FormulaParseError.injEq] at h
            subst h
            exact infix_wrapl "range first value not defined in " s
          · split at h
            · rename_i heq
              simp only [Except.error.injEq] at h
              rw [h] at heq
              exact parseVal_error_carries heq
            · simp only [Except.error.injEq, Error.FormulaParseError.injEq] at h
              subst h
              exact infix_wrapl "range second value not defined in " s
          · split at h
            · rename_i heq
              simp only [Except.error.injEq] at h
              rw [h] at heq
              exact parseVal_error_carries heq
            · split at h
              · rename_i heq
                simp only [Except.error.injEq] at h
                rw [h] at heq
                exact parseVal_error_carries heq
              · simp at h
        · simp only [Except.error.injEq, Error.FormulaParseError.injEq] at h
          subst h
          exact infix_wrap2 "unknown function in " s ": " _
      · simp only [Except.error.injEq, Error.FormulaParseError.injEq] at h
        subst h
        exact infix_wrapl "bracket not closed in " s
  · intro s h
    unfold isErr
    simp only [FormulaCalc.fromStr]
    unfold fRest at h
    rw [h]
    exact ⟨_, rfl⟩
  · intro s rest h hl
    unfold isErr
    simp only [FormulaCalc.fromStr]
    unfold fRest at h
    unfold fValRaw at hl
    simp only [h]
    exact ⟨_, rfl⟩
  · intro s rest h hl hk
    unfold isErr
    simp only [FormulaCalc.fromStr]
    unfold fRest at h
    unfold fValRaw at hl
    unfold fKind at hk
    simp only [h, hl]
    split
    all_goals first
      | (rename_i heq
         rw [heq] at hk
         exact absurd (by decide) hk)
      | exact ⟨_, rfl⟩
  · intro s rest h hl hk hp
    unfold isErr
    simp only [FormulaCalc.fromStr]
    unfold fRest at h
    unfold fValRaw at hl hp
    unfold fKind at hk
    simp only [h, hl]
    simp only [List.mem_cons, List.not_mem_nil, or_false] at hk
    rcases hk with hk | hk | hk | hk | hk | hk
    all_goals
      simp only [hk, parseVal, hp, Except.map]
      exact ⟨_, rfl⟩
  · intro s rest f1 h hl hk hs
    unfold isErr
    simp only [FormulaCalc.fromStr]
    unfold fRest at h
    unfold fValRaw at hl hs
    unfold fKind at hk
    simp only [h, hl, hk, hs]
    cases hpv : parseVal (String.mk f1) s with
    | error e =>
        cases e with
        | FormulaParseError mm => exact ⟨mm, rfl⟩
    | ok v => exact ⟨_, rfl⟩
  · intro s rest f1 f2 fr h hl hk hs hp
    unfold isErr
    simp only [FormulaCalc.fromStr]
    unfold fRest at h
    unfold fValRaw at hl hs
    unfold fKind at hk
    simp only [h, hl, hk, hs]
    rcases hp with hp | hp
    · cases hpv : parseVal (String.mk f1) s with
      | error e =>
          cases e with
          | FormulaParseError mm => exact ⟨mm, rfl⟩
      | ok v => simp [parseVal, hp] at hpv
    · cases hpv1 : parseVal (String.mk f1) s with
      | error e =>
          cases e with
          | FormulaParseError mm => exact ⟨mm, rfl⟩
      | ok v1 =>
          cases hpv2 : parseVal (String.mk f2) s with
          | error e =>
              cases e with
              | FormulaParseError mm => exact ⟨mm, rfl⟩
          | ok v2 => simp [parseVal, hp] at hpv2

theorem c9_parse_errors_witness :
    isErr "ge" ∧ isErr "ge(4" ∧ isErr "xxx(4)" ∧ isErr "ge(a)" ∧ isErr "ri(2)"
    ∧ isErr "ri(a..b)" :=
  ⟨c9_parse_errors.2.1 "ge" rfl,
   c9_parse_errors.2.2.1 "ge(4" ("4" : String).data rfl (by decide),
   c9_parse_errors.2.2.2.1 "xxx(4)" ("4)" : String).data rfl (by decide) (by decide),
   c9_parse_errors.2.2.2.2.1 "ge(a)" ("a)" : String).data rfl (by decide) (by decide)
     (by decide),
   c9_parse_errors.2.2.2.2.2.1 "ri(2)" ("2)" : String).data ("2" : String).data rfl
     (by decide) (by decide) (by decide),
   c9_parse_errors.2.2.2.2.2.2 "ri(a..b)" ("a..b)" : String).data ("a" : String).data
     ("b" : String).data [] rfl (by decide) (by decide) (by decide) (Or.inl (by decide))⟩


/-! ## The collection semantics of `get_subscribers_rec` -/

section CollectSem

variable {C : Type} [DecidableEq C]

/-- Which clients the publish-path traversal collects from a node for a
topic suffix: `sub_any` of every node visited while a segment remains,
`subscribers` at exhaustion, recursing into every matching child. -/
def Collects (E : RegexEngine) (fp rp : Option String) : Sub C → List String → C → Prop
  | nd, [], x => x ∈ nd.subscribers
  | nd, t :: sp, x =>
      x ∈ nd.subAny
      ∨ (match fp.bind fun p => stripPfx p t with
         | some fstr =>
             ∃ sub ∈ valuesMatchKeyFormula nd.subtopics fstr, Collects E fp rp sub sp x
         | none =>
             match rp.bind fun p => stripPfx p t with
             | some rstr =>
                 E.compiles rstr = true
                 ∧ ∃ q ∈ nd.subtopics.filter fun q => E.isMatch rstr q.1,
                     Collects E fp rp q.2 sp x
             | none =>
                 ∃ sub, getV nd.subtopics t = some sub ∧ Collects E fp rp sub sp x)
      ∨ (∃ q ∈ nd.subByFormula.filter fun q => q.1.matches t, Collects E fp rp q.2 sp x)
      ∨ (∃ q ∈ nd.subByRegex.filter fun q => E.isMatch q.1 t, Collects E fp rp q.2 sp x)
      ∨ (∃ sub, nd.subtopicsAny = some sub ∧ Collects E fp rp sub sp x)

/-- Membership in the result of `get_subscribers_rec`: exactly the
accumulator plus the clients the traversal collects. -/
theorem mem_getRec (E : RegexEngine) (fp rp : Option String) :
    ∀ (sp : List String) (nd : Sub C) (acc : List C) (x : C),
    x ∈ getSubscribersRec E fp rp nd sp acc ↔ x ∈ acc ∨ Collects E fp rp nd sp x := by
  intro sp
  induction sp with
  | nil =>
      intro nd acc x
      simp only [getSubscribersRec, Collects, mem_extSet]
  | cons t sp ih =>
      intro nd acc x
      have hfold : ∀ {α : Type} (g : α → Sub C) (l : List α) (a : List C),
          x ∈ l.foldl (fun a q => getSubscribersRec E fp rp (g q) sp a) a
          ↔ x ∈ a ∨ ∃ q ∈ l, Collects E fp rp (g q) sp x := by
        intro α g l
        induction l with
        | nil => intro a; simp
        | cons y l ihl =>
            intro a
            rw [List.foldl_cons, ihl, ih]
            constructor
            · rintro ((hx | hc) | ⟨q, hq, hc⟩)
              · exact Or.inl hx
              · exact Or.inr ⟨y, List.mem_cons_self y l, hc⟩
              · exact Or.inr ⟨q, List.mem_cons_of_mem y hq, hc⟩
            · rintro (hx | ⟨q, hq, hc⟩)
              · exact Or.inl (Or.inl hx)
              · rcases List.mem_cons.mp hq with rfl | hq
                · exact Or.inl (Or.inr hc)
                · exact Or.inr ⟨q, hq, hc⟩
      have hA : ∀ a : List C,
          x ∈ (match nd.subtopicsAny with
               | some sub => getSubscribersRec E fp rp sub sp a
               | none => a)
          ↔ x ∈ a ∨ ∃ sub, nd.subtopicsAny = some sub ∧ Collects E fp rp sub sp x := by
        intro a
        cases hsa : nd.subtopicsAny with
        | some sub => simp [ih, hsa]
        | none => simp [hsa]
      have hR : ∀ a : List C,
          x ∈ (if nd.subByRegex.isEmpty then a
               else (nd.subByRegex.filter fun q => E.isMatch q.1 t).foldl
                 (fun a q => getSubscribersRec E fp rp q.2 sp a) a)
          ↔ x ∈ a ∨ ∃ q ∈ nd.subByRegex.filter fun q => E.isMatch q.1 t,
              Collects E fp rp q.2 sp x := by
        intro a
        by_cases hbr : nd.subByRegex.isEmpty
        · rw [List.isEmpty_iff] at hbr
          simp [hbr]
        · simp only [hbr, if_neg, Bool.false_eq_true, not_false_iff]
          exact hfold (fun q : String × Sub C => q.2) _ a
      have hF : ∀ a : List C,
          x ∈ (if nd.subByFormula.isEmpty then a
               else (nd.subByFormula.filter fun q => q.1.matches t).foldl
                 (fun a q => getSubscribersRec E fp rp q.2 sp a) a)
          ↔ x ∈ a ∨ ∃ q ∈ nd.subByFormula.filter fun q => q.1.matches t,
              Collects E fp rp q.2 sp x := by
        intro a
        by_cases hbf : nd.subByFormula.isEmpty
        · rw [List.isEmpty_iff] at hbf
          simp [hbf]
        · simp only [hbf, if_neg, Bool.false_eq_true, not_false_iff]
          exact hfold (fun q : Formula × Sub C => q.2) _ a
      simp only [getSubscribersRec, Collects]
      cases hf : fp.bind fun p => stripPfx p t with
      | some fstr =>
          simp only [hf]
          rw [hA, hR, hF, hfold (fun sub : Sub C => sub), mem_extSet]
          simp only [or_assoc]
      | none =>
          cases hr : rp.bind fun p => stripPfx p t with
          | some rstr =>
              simp only [hf, hr]
              by_cases hcomp : E.compiles rstr
              · simp only [hcomp, if_pos]
                rw [hA, hR, hF, hfold (fun q : String × Sub C => q.2), mem_extSet]
                simp only [or_assoc, hcomp, true_and]
              · simp only [hcomp, Bool.false_eq_true, if_neg, not_false_iff]
                rw [hA, hR, hF, mem_extSet]
                simp only [or_assoc, hcomp, false_and]
                aesop
          | none =>
              simp only [hf, hr]
              cases hg : getV nd.subtopics t with
              | some sub =>
                  simp only [hg]
                  rw [hA, hR, hF, ih, mem_extSet]
                  simp only [or_assoc, Option.some_inj]
                  constructor
                  · rintro (hx | hx | hc | hc | hc | hc)
                    · exact Or.inl hx
                    · exact Or.inr (Or.inl hx)
                    · exact Or.inr (Or.inr (Or.inl ⟨sub, rfl, hc⟩))
                    · exact Or.inr (Or.inr (Or.inr (Or.inl hc)))
                    · exact Or.inr (Or.inr (Or.inr (Or.inr (Or.inl hc))))
                    · exact Or.inr (Or.inr (Or.inr (Or.inr (Or.inr hc))))
                  · rintro (hx | hx | ⟨sub2, rfl, hc⟩ | hc | hc | hc)
                    · exact Or.inl hx
                    · exact Or.inr (Or.inl hx)
                    · exact Or.inr (Or.inr (Or.inl hc))
                    · exact Or.inr (Or.inr (Or.inr (Or.inl hc)))
                    · exact Or.inr (Or.inr (Or.inr (Or.inr (Or.inl hc))))
                    · exact Or.inr (Or.inr (Or.inr (Or.inr (Or.inr hc))))
              | none =>
                  simp only [hg]
                  rw [hA, hR, hF, mem_extSet]
                  simp only [or_assoc]
                  constructor
                  · rintro (hx | hx | hc | hc | hc)
                    · exact Or.inl hx
                    · exact Or.inr (Or.inl hx)
                    · exact Or.inr (Or.inr (Or.inr (Or.inl hc)))
                    · exact Or.inr (Or.inr (Or.inr (Or.inr (Or.inl hc))))
                    · exact Or.inr (Or.inr (Or.inr (Or.inr (Or.inr hc))))
                  · rintro (hx | hx | ⟨sub2, hs2, hc⟩ | hc | hc | hc)
                    · exact Or.inl hx
                    · exact Or.inr (Or.inl hx)
                    · simp at hs2
                    · exact Or.inr (Or.inr (Or.inl hc))
                    · exact Or.inr (Or.inr (Or.inr (Or.inl hc)))
                    · exact Or.inr (Or.inr (Or.inr (Or.inr hc)))

end CollectSem


section CollectSem2

variable {C : Type} [DecidableEq C]

/-- C2 (amended): during collection the wildcard member set (`sub_any`) of a
node is unioned into the accumulator whenever at least one topic segment is
still unconsumed at that node; at the node where the segments are exhausted
only `subscribers` (plus the accumulator) is returned, so a client
subscribed to a prefix `P` followed by the wildcard token is not included
in `get_subscribers(P)` itself — it is included for topics strictly
extending `P`, as in the concrete third conjunct. -/
theorem c2_wildcard_union_amended (E : RegexEngine) (fp rp : Option String)
    (nd : Sub C) (t : String) (sp : List String) (acc : List C) :
    nd.subAny ⊆ getSubscribersRec E fp rp nd (t :: sp) acc
    ∧ getSubscribersRec E fp rp nd [] acc = extSet acc nd.subscribers
    ∧ 1 ∈ c2State.getSubscribers noRegex "unit/tests/xxx" := by
  refine ⟨?_, rfl, by decide⟩
  intro x hx
  refine (mem_getRec E fp rp (t :: sp) nd acc x).mpr (Or.inr ?_)
  show Collects E fp rp nd (t :: sp) x
  simp only [Collects]
  exact Or.inl hx

theorem c2_wildcard_union_amended_witness :
    (2 : Nat) ∈ getSubscribersRec noRegex none none
      (Sub.mk [] [] [] [] none [2]) ["x"] [] :=
  (c2_wildcard_union_amended noRegex none none (Sub.mk [] [] [] [] none [2])
    "x" [] []).1 (by decide)

/-- Reassociation of a four-fold disjunction. -/
theorem orAssoc4 {a b c d : Prop} : (((a ∨ b) ∨ c) ∨ d) ↔ a ∨ b ∨ c ∨ d := by
  tauto

/-- Reassociation of a three-fold disjunction. -/
theorem orAssoc3 {a b c : Prop} : ((a ∨ b) ∨ c) ↔ a ∨ b ∨ c := by
  tauto

/-- `is_subscribed_rec` is true exactly when the traversal collects some
client. -/
theorem isSubRec_iff (E : RegexEngine) (fp rp : Option String) :
    ∀ (sp : List String) (nd : Sub C),
    isSubscribedRec E fp rp nd sp = true ↔ ∃ x, Collects E fp rp nd sp x := by
  intro sp
  induction sp with
  | nil =>
      intro nd
      simp only [isSubscribedRec, Collects, Bool.not_eq_true']
      cases hsubs : nd.subscribers with
      | nil => simp
      | cons y l =>
          simp only [List.isEmpty_cons]
          constructor
          · intro _
            exact ⟨y, List.mem_cons_self y l⟩
          · intro _
            trivial
  | cons t sp ih =>
      intro nd
      have h3 : (nd.subByFormula.any fun q => q.1.matches t && isSubscribedRec E fp rp q.2 sp) = true
          ↔ ∃ x, ∃ q ∈ nd.subByFormula.filter fun q => q.1.matches t,
              Collects E fp rp q.2 sp x := by
        rw [List.any_eq_true]
        constructor
        · rintro ⟨q, hq, hqq⟩
          rw [Bool.and_eq_true] at hqq
          obtain ⟨x, hx⟩ := (ih q.2).mp hqq.2
          exact ⟨x, q, List.mem_filter.mpr ⟨hq, hqq.1⟩, hx⟩
        · rintro ⟨x, q, hq, hx⟩
          obtain ⟨hq2, hm⟩ := List.mem_filter.mp hq
          exact ⟨q, hq2, by rw [Bool.and_eq_true]; exact ⟨hm, (ih q.2).mpr ⟨x, hx⟩⟩⟩
      have h4 : (nd.subByRegex.any fun q => E.isMatch q.1 t && isSubscribedRec E fp rp q.2 sp) = true
          ↔ ∃ x, ∃ q ∈ nd.subByRegex.filter fun q => E.isMatch q.1 t,
              Collects E fp rp q.2 sp x := by
        rw [List.any_eq_true]
        constructor
        · rintro ⟨q, hq, hqq⟩
          rw [Bool.and_eq_true] at hqq
          obtain ⟨x, hx⟩ := (ih q.2).mp hqq.2
          exact ⟨x, q, List.mem_filter.mpr ⟨hq, hqq.1⟩, hx⟩
        · rintro ⟨x, q, hq, hx⟩
          obtain ⟨hq2, hm⟩ := List.mem_filter.mp hq
          exact ⟨q, hq2, by rw [Bool.and_eq_true]; exact ⟨hm, (ih q.2).mpr ⟨x, hx⟩⟩⟩
      have h5 : (match nd.subtopicsAny with
            | some sub => isSubscribedRec E fp rp sub sp
            | none => false) = true
          ↔ ∃ x, ∃ sub, nd.subtopicsAny = some sub ∧ Collects E fp rp sub sp x := by
        cases hsa : nd.subtopicsAny with
        | some sub => simp [ih, hsa]
        | none => simp [hsa]
      by_cases hwa : nd.subAny = []
      · have hwaB : (!nd.subAny.isEmpty) = false := by simp [hwa]
        simp only [isSubscribedRec, hwaB, Bool.false_eq_true, if_neg, not_false_iff]
        simp only [Collects, hwa, List.not_mem_nil, false_or]
        cases hf : fp.bind fun p => stripPfx p t with
        | some fstr =>
            have h1 : ((valuesMatchKeyFormula nd.subtopics fstr).any fun sub =>
                  isSubscribedRec E fp rp sub sp) = true
                ↔ ∃ x, ∃ sub ∈ valuesMatchKeyFormula nd.subtopics fstr,
                    Collects E fp rp sub sp x := by
              rw [List.any_eq_true]
              constructor
              · rintro ⟨sub, hs, hc⟩
                obtain ⟨x, hx⟩ := (ih sub).mp hc
                exact ⟨x, sub, hs, hx⟩
              · rintro ⟨x, sub, hs, hx⟩
                exact ⟨sub, hs, (ih sub).mpr ⟨x, hx⟩⟩
            simp only [hf, Bool.or_eq_true]
            rw [h1, h3, h4, h5]
            simp only [exists_or]
            exact orAssoc4
        | none =>
            cases hr : rp.bind fun p => stripPfx p t with
            | some rstr =>
                by_cases hcomp : E.compiles rstr
                · have h1 : (nd.subtopics.any fun q =>
                        E.isMatch rstr q.1 && isSubscribedRec E fp rp q.2 sp) = true
                      ↔ ∃ x, ∃ q ∈ nd.subtopics.filter fun q => E.isMatch rstr q.1,
                          Collects E fp rp q.2 sp x := by
                    rw [List.any_eq_true]
                    constructor
                    · rintro ⟨q, hq, hqq⟩
                      rw [Bool.and_eq_true] at hqq
                      obtain ⟨x, hx⟩ := (ih q.2).mp hqq.2
                      exact ⟨x, q, List.mem_filter.mpr ⟨hq, hqq.1⟩, hx⟩
                    · rintro ⟨x, q, hq, hx⟩
                      obtain ⟨hq2, hm⟩ := List.mem_filter.mp hq
                      exact ⟨q, hq2, by
                        rw [Bool.and_eq_true]
                        exact ⟨hm, (ih q.2).mpr ⟨x, hx⟩⟩⟩
                  simp only [hf, hr, hcomp, if_pos, Bool.or_eq_true, true_and]
                  rw [h1, h3, h4, h5]
                  simp only [exists_or]
                  exact orAssoc4
                · rw [Bool.not_eq_true] at hcomp
                  simp only [hf, hr, hcomp, Bool.false_eq_true, if_neg, not_false_iff,
                    false_and, exists_false, false_or, Bool.or_eq_true]
                  rw [h3, h4, h5]
                  simp only [exists_or]
                  exact orAssoc3
            | none =>
                cases hg : getV nd.subtopics t with
                | some sub =>
                    simp only [hf, hr, hg, Bool.or_eq_true, Option.some_inj,
                      exists_eq_left']
                    rw [ih sub, h3, h4, h5]
                    simp only [exists_or]
                    exact orAssoc4
                | none =>
                    simp only [hf, hr, hg, Bool.or_eq_true, Bool.false_eq_true,
                      false_or]
                    rw [h3, h4, h5]
                    simp only [exists_or]
                    have hnone : ¬ ∃ x : C, ∃ sub2, (none : Option (Sub C)) = some sub2
                        ∧ Collects E fp rp sub2 sp x := by
                      rintro ⟨x, sub2, hs2, hcx⟩
                      exact Option.noConfusion hs2
                    constructor
                    · rintro ((h | h) | h)
                      · exact Or.inr (Or.inl h)
                      · exact Or.inr (Or.inr (Or.inl h))
                      · exact Or.inr (Or.inr (Or.inr h))
                    · rintro (h | h | h | h)
                      · exact absurd h hnone
                      · exact Or.inl (Or.inl h)
                      · exact Or.inl (Or.inr h)
                      · exact Or.inr h
      · have hwaB : (!nd.subAny.isEmpty) = true := by
          cases hl : nd.subAny with
          | nil => exact absurd hl hwa
          | cons y l => rfl
        simp only [isSubscribedRec, hwaB, if_pos, Collects, true_iff]
        cases hl : nd.subAny with
        | nil => exact absurd hl hwa
        | cons y l => exact ⟨y, Or.inl (by simp [hl])⟩

/-- C6: `is_subscribed(topic)` is exactly the boolean short-circuit of
`get_subscribers(topic)` being non-empty, for every map state, engine and
topic. -/
theorem c6_is_subscribed_iff_nonempty (E : RegexEngine) (m : SubMapSt C)
    (topic : String) :
    m.isSubscribed E topic = !(m.getSubscribers E topic).isEmpty := by
  have h1 := isSubRec_iff E m.fpfx m.rpfx (splitStr m.separator topic) m.subscriptions
  have h2 : ∀ x, x ∈ m.getSubscribers E topic
      ↔ Collects E m.fpfx m.rpfx m.subscriptions (splitStr m.separator topic) x := by
    intro x
    have := mem_getRec E m.fpfx m.rpfx (splitStr m.separator topic) m.subscriptions [] x
    simpa [SubMapSt.getSubscribers] using this
  rcases hres : m.getSubscribers E topic with _ | ⟨y, l⟩
  · cases hb : m.isSubscribed E topic
    · rfl
    · exfalso
      obtain ⟨x, hc⟩ := h1.mp hb
      have hx : x ∈ m.getSubscribers E topic := (h2 x).mpr hc
      rw [hres] at hx
      exact absurd hx (List.not_mem_nil x)
  · have hy : y ∈ m.getSubscribers E topic := by
      rw [hres]
      exact List.mem_cons_self y l
    have : m.isSubscribed E topic = true := h1.mpr ⟨y, (h2 y).mp hy⟩
    rw [this]
    rfl

end CollectSem2


/-! ## Claim C7: count consistency over reachable states -/

section CountInv

variable {C : Type} [DecidableEq C]

/-- Keys of an association list. -/
def keysOf (l : List (C × List String)) : List C := l.map fun p => p.1

/-- Total number of stored (client, topic) pairs. -/
def topicsSum (l : List (C × List String)) : Nat :=
  (l.map fun p => p.2.length).sum

theorem getV_mem {K V : Type} [DecidableEq K] {l : List (K × V)} {k : K} {v : V}
    (h : getV l k = some v) : (k, v) ∈ l := by
  induction l with
  | nil => simp [getV] at h
  | cons p l ih =>
      by_cases hp : p.1 = k
      · simp only [getV, if_pos hp] at h
        have hv : p.2 = v := Option.some_inj.mp h
        have hpk : p = (k, v) := Prod.ext_iff.mpr ⟨hp, hv⟩
        rw [← hpk]
        exact List.mem_cons_self p l
      · simp only [getV, if_neg hp] at h
        exact List.mem_cons_of_mem _ (ih h)

theorem getV_none_not_mem {K V : Type} [DecidableEq K] {l : List (K × V)} {k : K}
    (h : getV l k = none) : ∀ v, (k, v) ∉ l := by
  induction l with
  | nil => simp
  | cons p l ih =>
      by_cases hp : p.1 = k
      · simp [getV, hp] at h
      · simp only [getV, if_neg hp] at h
        intro v hv
        rcases List.mem_cons.mp hv with rfl | hv
        · exact hp rfl
        · exact ih h v hv

theorem sum_updV {l : List (C × List String)} {k : C} {v w : List String}
    (h : getV l k = some v) :
    topicsSum (updV l k w) + v.length = topicsSum l + w.length := by
  induction l with
  | nil => simp [getV] at h
  | cons p l ih =>
      by_cases hp : p.1 = k
      · simp only [getV, if_pos hp] at h
        have hv : p.2 = v := Option.some_inj.mp h
        subst hv
        simp only [updV, if_pos hp, topicsSum, List.map_cons, List.sum_cons]
        omega
      · simp only [getV, if_neg hp] at h
        simp only [updV, if_neg hp, topicsSum, List.map_cons, List.sum_cons]
        have h2 := ih h
        simp only [topicsSum] at h2
        omega

theorem sum_eraseV {l : List (C × List String)} {k : C} {v : List String}
    (h : getV l k = some v) :
    topicsSum (eraseV l k) + v.length = topicsSum l := by
  induction l with
  | nil => simp [getV] at h
  | cons p l ih =>
      by_cases hp : p.1 = k
      · simp only [getV, if_pos hp] at h
        have hv : p.2 = v := Option.some_inj.mp h
        subst hv
        simp only [eraseV, if_pos hp, topicsSum, List.map_cons, List.sum_cons]
        omega
      · simp only [getV, if_neg hp] at h
        simp only [eraseV, if_neg hp, topicsSum, List.map_cons, List.sum_cons]
        have h2 := ih h
        simp only [topicsSum] at h2
        omega

theorem getV_le_sum {l : List (C × List String)} {k : C} {v : List String}
    (h : getV l k = some v) : v.length ≤ topicsSum l := by
  induction l with
  | nil => simp [getV] at h
  | cons p l ih =>
      by_cases hp : p.1 = k
      · simp only [getV, if_pos hp] at h
        have hv : p.2 = v := Option.some_inj.mp h
        subst hv
        simp only [topicsSum, List.map_cons, List.sum_cons]
        omega
      · simp only [getV, if_neg hp] at h
        have h2 := ih h
        simp only [topicsSum, List.map_cons, List.sum_cons] at h2 ⊢
        omega

theorem length_ersC {c : C} {l : List C} (h : c ∈ l) :
    (ersC c l).length + 1 = l.length := by
  induction l with
  | nil => simp at h
  | cons y l ih =>
      by_cases hy : y = c
      · simp [ersC, hy]
      · rcases List.mem_cons.mp h with rfl | h2
        · exact absurd rfl hy
        · simp only [ersC, if_neg hy, List.length_cons]
          rw [← ih h2]

theorem ersC_sublist (c : C) (l : List C) : (ersC c l).Sublist l := by
  induction l with
  | nil => simp [ersC]
  | cons y l ih =>
      by_cases hy : y = c
      · simp only [ersC, if_pos hy]
        exact List.sublist_cons_self y l
      · simp only [ersC, if_neg hy]
        exact List.Sublist.cons₂ y ih

theorem insC_nodup {c : C} {l : List C} (h : l.Nodup) : (insC c l).Nodup := by
  unfold insC
  split
  · exact h
  · rename_i hn
    have : (l ++ [c]).Perm (c :: l) := List.perm_append_singleton c l
    exact this.nodup_iff.mpr (List.nodup_cons.mpr ⟨hn, h⟩)

theorem eraseV_sublist {K V : Type} [DecidableEq K] (l : List (K × V)) (k : K) :
    (eraseV l k).Sublist l := by
  induction l with
  | nil => simp [eraseV]
  | cons p l ih =>
      by_cases hp : p.1 = k
      · simp only [eraseV, if_pos hp]
        exact List.sublist_cons_self p l
      · simp only [eraseV, if_neg hp]
        exact List.Sublist.cons₂ p ih

theorem keysOf_updV {l : List (C × List String)} {k : C} {v : List String} :
    keysOf (updV l k v) = keysOf l := by
  induction l with
  | nil => simp [updV, keysOf]
  | cons p l ih =>
      by_cases hp : p.1 = k
      · simp [updV, hp, keysOf]
      · simp only [updV, if_neg hp, keysOf, List.map_cons]
        simp only [keysOf] at ih
        rw [ih]

theorem mem_updV {l : List (C × List String)} {k : C} {v : List String}
    {p : C × List String} (h : p ∈ updV l k v) : p ∈ l ∨ p = (k, v) := by
  induction l with
  | nil => simp [updV] at h
  | cons q l ih =>
      by_cases hq : q.1 = k
      · simp only [updV, if_pos hq] at h
        rcases List.mem_cons.mp h with rfl | h2
        · exact Or.inr rfl
        · exact Or.inl (List.mem_cons_of_mem q h2)
      · simp only [updV, if_neg hq] at h
        rcases List.mem_cons.mp h with rfl | h2
        · exact Or.inl (List.mem_cons_self _ _)
        · rcases ih h2 with h3 | h3
          · exact Or.inl (List.mem_cons_of_mem q h3)
          · exact Or.inr h3

/-- States reachable through the `SubMap` API from a freshly configured map
(any separator, prefixes and token sets; any regex engine at each step). -/
inductive SMReach : SubMapSt C → Prop where
  | init (sep : Char) (fp rp : Option String) (ma wc : List String) :
      SMReach ⟨Sub.empty, [], 0, sep, fp, rp, ma, wc⟩
  | register (m : SubMapSt C) (c : C) :
      SMReach m → SMReach (m.registerClient c).2
  | unregister (E : RegexEngine) (m : SubMapSt C) (c : C) :
      SMReach m → SMReach (SubMapSt.unregisterClient E m c).2
  | subscribe (E : RegexEngine) (m : SubMapSt C) (t : String) (c : C) :
      SMReach m → SMReach (SubMapSt.subscribe E m t c).2
  | unsubscribe (E : RegexEngine) (m : SubMapSt C) (t : String) (c : C) :
      SMReach m → SMReach (SubMapSt.unsubscribe E m t c).2
  | unsubscribeAll (E : RegexEngine) (m : SubMapSt C) (c : C) :
      SMReach m → SMReach (SubMapSt.unsubscribeAll E m c).2

/-- C7: after every operation, `subscription_count` equals the sum over all
registered clients of the cardinality of `client_topics[c]` (the topic
lists are duplicate-free and client keys unique, so list length is set
cardinality). -/
theorem c7_count_consistency (m : SubMapSt C) (h : SMReach m) :
    m.subscriptionCount = topicsSum m.subscribedTopics
    ∧ (keysOf m.subscribedTopics).Nodup
    ∧ ∀ p ∈ m.subscribedTopics, p.2.Nodup := by
  induction h with
  | init sep fp rp ma wc => exact ⟨rfl, List.nodup_nil, by simp⟩
  | register m c hm ih =>
      obtain ⟨ihc, ihk, ihn⟩ := ih
      cases hg : getV m.subscribedTopics c with
      | some topics =>
          simp only [SubMapSt.registerClient, hg]
          exact ⟨ihc, ihk, ihn⟩
      | none =>
          simp only [SubMapSt.registerClient, hg]
          refine ⟨?_, ?_, ?_⟩
          · simpa [topicsSum, pushV] using ihc
          · have hnotin : c ∉ keysOf m.subscribedTopics := by
              intro hc
              obtain ⟨p, hp, he⟩ := List.mem_map.mp hc
              have hpk : p = (c, p.2) := Prod.ext_iff.mpr ⟨he, rfl⟩
              rw [hpk] at hp
              exact getV_none_not_mem hg p.2 hp
            have hperm : (keysOf (pushV m.subscribedTopics c [])).Perm
                (c :: keysOf m.subscribedTopics) := by
              simp only [keysOf, pushV, List.map_append, List.map_cons, List.map_nil]
              exact List.perm_append_singleton c _
            exact hperm.nodup_iff.mpr (List.nodup_cons.mpr ⟨hnotin, ihk⟩)
          · intro p hp
            simp only [pushV] at hp
            rcases List.mem_append.mp hp with h2 | h2
            · exact ihn p h2
            · simp only [List.mem_singleton] at h2
              subst h2
              exact List.nodup_nil
  | unregister E m c hm ih =>
      obtain ⟨ihc, ihk, ihn⟩ := ih
      cases hg : getV m.subscribedTopics c with
      | none =>
          simp only [SubMapSt.unregisterClient, hg]
          exact ⟨ihc, ihk, ihn⟩
      | some topics =>
          simp only [SubMapSt.unregisterClient, hg]
          refine ⟨?_, ?_, ?_⟩
          · have h1 := sum_eraseV hg
            have h2 := getV_le_sum hg
            omega
          · have hsub : (keysOf (eraseV m.subscribedTopics c)).Sublist
                (keysOf m.subscribedTopics) :=
              (eraseV_sublist m.subscribedTopics c).map _
            exact hsub.nodup ihk
          · intro p hp
            exact ihn p ((eraseV_sublist m.subscribedTopics c).mem hp)
  | subscribe E m t c hm ih =>
      obtain ⟨ihc, ihk, ihn⟩ := ih
      cases hg : getV m.subscribedTopics c with
      | none =>
          simp only [SubMapSt.subscribe, hg]
          exact ⟨ihc, ihk, ihn⟩
      | some topics =>
          by_cases ht : t ∈ topics
          · simp only [SubMapSt.subscribe, hg, if_pos ht]
            exact ⟨ihc, ihk, ihn⟩
          · simp only [SubMapSt.subscribe, hg, if_neg ht]
            refine ⟨?_, ?_, ?_⟩
            · have h1 := sum_updV (w := insC t topics) hg
              have h2 : (insC t topics).length = topics.length + 1 := by
                simp [insC, ht]
              omega
            · simpa [keysOf_updV] using ihk
            · intro p hp
              rcases mem_updV hp with h2 | h2
              · exact ihn p h2
              · subst h2
                exact insC_nodup (ihn (c, topics) (getV_mem hg))
  | unsubscribe E m t c hm ih =>
      obtain ⟨ihc, ihk, ihn⟩ := ih
      cases hg : getV m.subscribedTopics c with
      | none =>
          simp only [SubMapSt.unsubscribe, hg]
          exact ⟨ihc, ihk, ihn⟩
      | some topics =>
          by_cases ht : t ∈ topics
          · simp only [SubMapSt.unsubscribe, hg, if_pos ht]
            refine ⟨?_, ?_, ?_⟩
            · have h1 := sum_updV (w := ersC t topics) hg
              have h2 := length_ersC ht
              have h3 := getV_le_sum hg
              have h4 : 0 < topics.length := List.length_pos.mpr
                (List.ne_nil_of_mem ht)
              omega
            · simpa [keysOf_updV] using ihk
            · intro p hp
              rcases mem_updV hp with h2 | h2
              · exact ihn p h2
              · subst h2
                exact (ersC_sublist t topics).nodup (ihn (c, topics) (getV_mem hg))
          · simp only [SubMapSt.unsubscribe, hg, if_neg ht]
            exact ⟨ihc, ihk, ihn⟩
  | unsubscribeAll E m c hm ih =>
      obtain ⟨ihc, ihk, ihn⟩ := ih
      cases hg : getV m.subscribedTopics c with
      | none =>
          simp only [SubMapSt.unsubscribeAll, hg]
          exact ⟨ihc, ihk, ihn⟩
      | some topics =>
          simp only [SubMapSt.unsubscribeAll, hg]
          refine ⟨?_, ?_, ?_⟩
          · have h1 := sum_updV (w := ([] : List String)) hg
            have h2 := getV_le_sum hg
            simp only [List.length_nil] at h1
            omega
          · simpa [keysOf_updV] using ihk
          · intro p hp
            rcases mem_updV hp with h2 | h2
            · exact ihn p h2
            · subst h2
              exact List.nodup_nil

theorem c7_count_consistency_witness :
    c1State.subscriptionCount = topicsSum c1State.subscribedTopics :=
  (c7_count_consistency c1State
    (SMReach.subscribe noRegex _ "unit/+/#" 2
      (SMReach.subscribe noRegex _ "unit/tests/#" 1
        (SMReach.register _ 2
          (SMReach.register _ 1
            (SMReach.init '/' none none ["+"] ["#"])))))).1

end CountInv


/-! ## Claim C4: subscribe/unsubscribe round trip -/

section RoundTrip

variable {C : Type} [DecidableEq C]

@[simp] theorem Sub.subscribers_mk (a : List C) b c d e f :
    (Sub.mk a b c d e f).subscribers = a := rfl

@[simp] theorem Sub.subtopics_mk (a : List C) b c d e f :
    (Sub.mk a b c d e f).subtopics = b := rfl

@[simp] theorem Sub.subByFormula_mk (a : List C) b c d e f :
    (Sub.mk a b c d e f).subByFormula = c := rfl

@[simp] theorem Sub.subByRegex_mk (a : List C) b c d e f :
    (Sub.mk a b c d e f).subByRegex = d := rfl

@[simp] theorem Sub.subtopicsAny_mk (a : List C) b c d e f :
    (Sub.mk a b c d e f).subtopicsAny = e := rfl

@[simp] theorem Sub.subAny_mk (a : List C) b c d e f :
    (Sub.mk a b c d e f).subAny = f := rfl

@[simp] theorem Sub.subscribers_empty : (Sub.empty : Sub C).subscribers = [] := rfl

@[simp] theorem Sub.subtopics_empty : (Sub.empty : Sub C).subtopics = [] := rfl

@[simp] theorem Sub.subByFormula_empty : (Sub.empty : Sub C).subByFormula = [] := rfl

@[simp] theorem Sub.subByRegex_empty : (Sub.empty : Sub C).subByRegex = [] := rfl

@[simp] theorem Sub.subtopicsAny_empty : (Sub.empty : Sub C).subtopicsAny = none := rfl

@[simp] theorem Sub.subAny_empty : (Sub.empty : Sub C).subAny = [] := rfl

theorem Sub.eta (nd : Sub C) :
    Sub.mk nd.subscribers nd.subtopics nd.subByFormula nd.subByRegex
      nd.subtopicsAny nd.subAny = nd := by
  cases nd
  rfl

/-- The then-branch of pruning: the freshly emptied child is removed. -/
theorem prune_empty {α : Type} (a b : α) :
    (if (Sub.empty : Sub C).isEmptyS = true then a else b) = a := rfl

/-- The else-branch of pruning: a non-empty child is kept. -/
theorem prune_kept {α : Type} {s : Sub C} (h : s.isEmptyS = false) (a b : α) :
    (if s.isEmptyS = true then a else b) = b := by
  rw [h]
  rfl

/-- Spec invariant 4: no trie node is empty except the root — every child
node everywhere in the trie is non-empty, recursively. -/
inductive WF : Sub C → Prop where
  | mk (nd : Sub C) :
      (∀ p ∈ nd.subtopics, p.2.isEmptyS = false) →
      (∀ p ∈ nd.subtopics, WF p.2) →
      (∀ p ∈ nd.subByFormula, p.2.isEmptyS = false) →
      (∀ p ∈ nd.subByFormula, WF p.2) →
      (∀ p ∈ nd.subByRegex, p.2.isEmptyS = false) →
      (∀ p ∈ nd.subByRegex, WF p.2) →
      (∀ s, nd.subtopicsAny = some s → s.isEmptyS = false) →
      (∀ s, nd.subtopicsAny = some s → WF s) →
      WF nd

/-- Whether the client is already present at the trie slot that subscribing
along these segments would target (false when the insertion would abort on
an unparseable formula or uncompilable regex). -/
def hasSub (E : RegexEngine) (wc ma : List String) (fp rp : Option String) :
    Sub C → List String → C → Bool
  | nd, [], c => decide (c ∈ nd.subscribers)
  | nd, t :: sp, c =>
      if t ∈ wc then decide (c ∈ nd.subAny)
      else if t ∈ ma then
        match nd.subtopicsAny with
        | some sub => hasSub E wc ma fp rp sub sp c
        | none => false
      else
        match fp.bind fun p => stripPfx p t with
        | some fstr =>
            match Formula.fromStr fstr with
            | .error _ => false
            | .ok f =>
                match getV nd.subByFormula f with
                | some sub => hasSub E wc ma fp rp sub sp c
                | none => false
        | none =>
            match rp.bind fun p => stripPfx p t with
            | some rstr =>
                if E.compiles rstr then
                  match getV nd.subByRegex rstr with
                  | some sub => hasSub E wc ma fp rp sub sp c
                  | none => false
                else false
            | none =>
                match getV nd.subtopics t with
                | some sub => hasSub E wc ma fp rp sub sp c
                | none => false

theorem updV_updV {K V : Type} [DecidableEq K] {l : List (K × V)} {k : K} {v w : V} :
    updV (updV l k v) k w = updV l k w := by
  induction l with
  | nil => simp [updV]
  | cons p l ih =>
      by_cases hp : p.1 = k
      · simp [updV, hp]
      · simp [updV, hp, ih]

/-- Subscribing into a fresh (default) node and unsubscribing again leaves
the default node. -/
theorem unsub_sub_empty (E : RegexEngine) (wc ma : List String)
    (fp rp : Option String) :
    ∀ (sp : List String) (c : C),
    unsubscribeRec E wc ma fp rp
      (subscribeRec E wc ma fp rp Sub.empty sp c) sp c = Sub.empty := by
  intro sp
  induction sp with
  | nil =>
      intro c
      simp only [subscribeRec, unsubscribeRec, Sub.subscribers_mk, Sub.subtopics_mk,
        Sub.subByFormula_mk, Sub.subByRegex_mk, Sub.subtopicsAny_mk, Sub.subAny_mk,
        Sub.subscribers_empty, Sub.subtopics_empty, Sub.subByFormula_empty,
        Sub.subByRegex_empty, Sub.subtopicsAny_empty, Sub.subAny_empty]
      rw [ersC_insC (List.not_mem_nil c)]
      rfl
  | cons t sp ih =>
      intro c
      by_cases hw : t ∈ wc
      · simp only [subscribeRec, unsubscribeRec, if_pos hw, Sub.subAny_mk,
          Sub.subscribers_mk, Sub.subtopics_mk, Sub.subByFormula_mk,
          Sub.subByRegex_mk, Sub.subtopicsAny_mk, Sub.subAny_empty,
          Sub.subscribers_empty, Sub.subtopics_empty, Sub.subByFormula_empty,
          Sub.subByRegex_empty, Sub.subtopicsAny_empty]
        rw [ersC_insC (List.not_mem_nil c)]
        rfl
      · by_cases hm : t ∈ ma
        · simp only [subscribeRec, unsubscribeRec, if_neg hw, if_pos hm,
            Sub.subtopicsAny_empty, Sub.subtopicsAny_mk, Sub.subscribers_mk,
            Sub.subtopics_mk, Sub.subByFormula_mk, Sub.subByRegex_mk, Sub.subAny_mk,
            Sub.subscribers_empty, Sub.subtopics_empty, Sub.subByFormula_empty,
            Sub.subByRegex_empty, Sub.subAny_empty]
          rw [ih c, prune_empty]
          rfl
        · cases hf : fp.bind fun p => stripPfx p t with
          | some fstr =>
              cases hc : Formula.fromStr fstr with
              | error e =>
                  simp only [subscribeRec, unsubscribeRec, if_neg hw, if_neg hm, hf, hc]
              | ok f =>
                  simp only [subscribeRec, unsubscribeRec, if_neg hw, if_neg hm, hf, hc,
                    Sub.subByFormula_empty, Sub.subByFormula_mk, Sub.subscribers_mk,
                    Sub.subtopics_mk, Sub.subByRegex_mk, Sub.subtopicsAny_mk,
                    Sub.subAny_mk, Sub.subscribers_empty, Sub.subtopics_empty,
                    Sub.subByRegex_empty, Sub.subtopicsAny_empty, Sub.subAny_empty,
                    getV, pushV, List.nil_append, if_pos]
                  rw [ih c, prune_empty]
                  simp [eraseV]
                  rfl
          | none =>
              cases hr : rp.bind fun p => stripPfx p t with
              | some rstr =>
                  by_cases hcomp : E.compiles rstr
                  · simp only [subscribeRec, unsubscribeRec, if_neg hw, if_neg hm, hf,
                      hr, hcomp, if_pos, Sub.subByRegex_empty, Sub.subByRegex_mk,
                      Sub.subscribers_mk, Sub.subtopics_mk, Sub.subByFormula_mk,
                      Sub.subtopicsAny_mk, Sub.subAny_mk, Sub.subscribers_empty,
                      Sub.subtopics_empty, Sub.subByFormula_empty,
                      Sub.subtopicsAny_empty, Sub.subAny_empty,
                      getV, pushV, List.nil_append, if_pos]
                    rw [ih c, prune_empty]
                    simp [eraseV]
                    rfl
                  · rw [Bool.not_eq_true] at hcomp
                    simp only [subscribeRec, unsubscribeRec, if_neg hw, if_neg hm, hf,
                      hr, hcomp, Bool.false_eq_true, if_neg, not_false_iff]
              | none =>
                  simp only [subscribeRec, unsubscribeRec, if_neg hw, if_neg hm, hf, hr,
                    Sub.subtopics_empty, Sub.subtopics_mk, Sub.subscribers_mk,
                    Sub.subByFormula_mk, Sub.subByRegex_mk, Sub.subtopicsAny_mk,
                    Sub.subAny_mk, Sub.subscribers_empty, Sub.subByFormula_empty,
                    Sub.subByRegex_empty, Sub.subtopicsAny_empty, Sub.subAny_empty,
                    getV, pushV, List.nil_append, if_pos]
                  rw [ih c, prune_empty]
                  simp [eraseV]
                  rfl
end RoundTrip


section RoundTrip2

variable {C : Type} [DecidableEq C]

/-- Round trip at the trie level: unsubscribing right after subscribing
restores the trie exactly, provided no non-root node is empty and the
client was not already present at the targeted slot. -/
theorem unsub_sub_rec (E : RegexEngine) (wc ma : List String)
    (fp rp : Option String) :
    ∀ (sp : List String) (nd : Sub C) (c : C), WF nd →
    hasSub E wc ma fp rp nd sp c = false →
    unsubscribeRec E wc ma fp rp
      (subscribeRec E wc ma fp rp nd sp c) sp c = nd := by
  intro sp
  induction sp with
  | nil =>
      intro nd c hwf hhas
      simp only [hasSub, decide_eq_false_iff_not] at hhas
      simp only [subscribeRec, unsubscribeRec, Sub.subscribers_mk, Sub.subtopics_mk,
        Sub.subByFormula_mk, Sub.subByRegex_mk, Sub.subtopicsAny_mk, Sub.subAny_mk]
      rw [ersC_insC hhas, Sub.eta]
  | cons t sp ih =>
      intro nd c hwf hhas
      obtain ⟨hstE, hstW, hbfE, hbfW, hbrE, hbrW, hsaE, hsaW⟩ :
          (∀ p ∈ nd.subtopics, p.2.isEmptyS = false)
          ∧ (∀ p ∈ nd.subtopics, WF p.2)
          ∧ (∀ p ∈ nd.subByFormula, p.2.isEmptyS = false)
          ∧ (∀ p ∈ nd.subByFormula, WF p.2)
          ∧ (∀ p ∈ nd.subByRegex, p.2.isEmptyS = false)
          ∧ (∀ p ∈ nd.subByRegex, WF p.2)
          ∧ (∀ s, nd.subtopicsAny = some s → s.isEmptyS = false)
          ∧ (∀ s, nd.subtopicsAny = some s → WF s) := by
        cases hwf with
        | mk nd h1 h2 h3 h4 h5 h6 h7 h8 => exact ⟨h1, h2, h3, h4, h5, h6, h7, h8⟩
      by_cases hw : t ∈ wc
      · simp only [hasSub, if_pos hw, decide_eq_false_iff_not] at hhas
        simp only [subscribeRec, unsubscribeRec, if_pos hw, Sub.subscribers_mk,
          Sub.subtopics_mk, Sub.subByFormula_mk, Sub.subByRegex_mk,
          Sub.subtopicsAny_mk, Sub.subAny_mk]
        rw [ersC_insC hhas, Sub.eta]
      · by_cases hm : t ∈ ma
        · simp only [hasSub, if_neg hw, if_pos hm] at hhas
          cases hso : nd.subtopicsAny with
          | some sub =>
              rw [hso] at hhas
              simp only [subscribeRec, unsubscribeRec, if_neg hw, if_pos hm, hso,
                Sub.subscribers_mk, Sub.subtopics_mk, Sub.subByFormula_mk,
                Sub.subByRegex_mk, Sub.subtopicsAny_mk, Sub.subAny_mk]
              rw [ih sub c (hsaW sub hso) hhas, prune_kept (hsaE sub hso), ← hso,
                Sub.eta]
          | none =>
              simp only [subscribeRec, unsubscribeRec, if_neg hw, if_pos hm, hso,
                Sub.subscribers_mk, Sub.subtopics_mk, Sub.subByFormula_mk,
                Sub.subByRegex_mk, Sub.subtopicsAny_mk, Sub.subAny_mk]
              rw [unsub_sub_empty, prune_empty, ← hso, Sub.eta]
        · cases hf : fp.bind fun p => stripPfx p t with
          | some fstr =>
              cases hc : Formula.fromStr fstr with
              | error e =>
                  simp only [subscribeRec, unsubscribeRec, if_neg hw, if_neg hm, hf, hc]
              | ok f =>
                  simp only [hasSub, if_neg hw, if_neg hm, hf, hc] at hhas
                  cases hg : getV nd.subByFormula f with
                  | some sub =>
                      rw [hg] at hhas
                      simp only [subscribeRec, unsubscribeRec, if_neg hw, if_neg hm,
                        hf, hc, hg, Sub.subscribers_mk, Sub.subtopics_mk,
                        Sub.subByFormula_mk, Sub.subByRegex_mk, Sub.subtopicsAny_mk,
                        Sub.subAny_mk, getV_updV_eq hg]
                      rw [ih sub c (hbfW (f, sub) (getV_mem hg)) hhas,
                        prune_kept (hbfE (f, sub) (getV_mem hg)), updV_updV,
                        getV_updV_self hg, Sub.eta]
                  | none =>
                      simp only [subscribeRec, unsubscribeRec, if_neg hw, if_neg hm,
                        hf, hc, hg, Sub.subscribers_mk, Sub.subtopics_mk,
                        Sub.subByFormula_mk, Sub.subByRegex_mk, Sub.subtopicsAny_mk,
                        Sub.subAny_mk, getV_pushV_eq hg]
                      rw [unsub_sub_empty, prune_empty, eraseV_pushV hg, Sub.eta]
          | none =>
              cases hr : rp.bind fun p => stripPfx p t with
              | some rstr =>
                  by_cases hcomp : E.compiles rstr
                  · simp only [hasSub, if_neg hw, if_neg hm, hf, hr, hcomp,
                      if_pos] at hhas
                    cases hg : getV nd.subByRegex rstr with
                    | some sub =>
                        rw [hg] at hhas
                        simp only [subscribeRec, unsubscribeRec, if_neg hw, if_neg hm,
                          hf, hr, hcomp, if_pos, hg, Sub.subscribers_mk,
                          Sub.subtopics_mk, Sub.subByFormula_mk, Sub.subByRegex_mk,
                          Sub.subtopicsAny_mk, Sub.subAny_mk, getV_updV_eq hg]
                        rw [ih sub c (hbrW (rstr, sub) (getV_mem hg)) hhas,
                          prune_kept (hbrE (rstr, sub) (getV_mem hg)), updV_updV,
                          getV_updV_self hg, Sub.eta]
                    | none =>
                        simp only [subscribeRec, unsubscribeRec, if_neg hw, if_neg hm,
                          hf, hr, hcomp, if_pos, hg, Sub.subscribers_mk,
                          Sub.subtopics_mk, Sub.subByFormula_mk, Sub.subByRegex_mk,
                          Sub.subtopicsAny_mk, Sub.subAny_mk, getV_pushV_eq hg]
                        rw [unsub_sub_empty, prune_empty, eraseV_pushV hg, Sub.eta]
                  · rw [Bool.not_eq_true] at hcomp
                    simp only [subscribeRec, unsubscribeRec, if_neg hw, if_neg hm, hf,
                      hr, hcomp, Bool.false_eq_true, if_neg, not_false_iff]
              | none =>
                  simp only [hasSub, if_neg hw, if_neg hm, hf, hr] at hhas
                  cases hg : getV nd.subtopics t with
                  | some sub =>
                      rw [hg] at hhas
                      simp only [subscribeRec, unsubscribeRec, if_neg hw, if_neg hm,
                        hf, hr, hg, Sub.subscribers_mk, Sub.subtopics_mk,
                        Sub.subByFormula_mk, Sub.subByRegex_mk, Sub.subtopicsAny_mk,
                        Sub.subAny_mk, getV_updV_eq hg]
                      rw [ih sub c (hstW (t, sub) (getV_mem hg)) hhas,
                        prune_kept (hstE (t, sub) (getV_mem hg)), updV_updV,
                        getV_updV_self hg, Sub.eta]
                  | none =>
                      simp only [subscribeRec, unsubscribeRec, if_neg hw, if_neg hm,
                        hf, hr, hg, Sub.subscribers_mk, Sub.subtopics_mk,
                        Sub.subByFormula_mk, Sub.subByRegex_mk, Sub.subtopicsAny_mk,
                        Sub.subAny_mk, getV_pushV_eq hg]
                      rw [unsub_sub_empty, prune_empty, eraseV_pushV hg, Sub.eta]

end RoundTrip2


section RoundTrip3

variable {C : Type} [DecidableEq C]

/-- The empty trie is well-formed. -/
theorem WF_empty : WF (Sub.empty : Sub C) :=
  WF.mk Sub.empty (by simp) (by simp) (by simp) (by simp) (by simp) (by simp)
    (by simp) (by simp)

/-- The C4 counterexample pre-state: client 1 registered and already
subscribed to pattern `a`. -/
def c4State : SubMapSt Nat :=
  let m := (SubMapSt.new.registerClient 1).2
  (m.subscribe noRegex "a" 1).2

/-- C4 counterexample: when the client already holds the pattern,
`subscribe` is a no-op but `unsubscribe` removes the pre-existing
subscription, so the round trip does NOT return to the pre-state: the
count drops from 1 to 0 and the reverse index loses the pattern. -/
theorem c4_duplicate_not_roundtrip :
    c4State.subscriptionCount = 1
    ∧ c4State.listTopics 1 = ["a"]
    ∧ (SubMapSt.unsubscribe noRegex
        (SubMapSt.subscribe noRegex c4State "a" 1).2 "a" 1).2.subscriptionCount = 0
    ∧ (SubMapSt.unsubscribe noRegex
        (SubMapSt.subscribe noRegex c4State "a" 1).2 "a" 1).2.listTopics 1 = [] := by
  decide

/-- C4 (amended): for a registered client `c` whose topic set does not
contain `p`, and whose trie slot targeted by `p` does not already hold `c`
(no aliasing from another pattern such as a wildcard or canonicalised
formula), on a trie with no empty non-root node, `subscribe(p, c)` followed
by `unsubscribe(p, c)` restores the map exactly: trie, reverse index and
count all equal the pre-state (both calls returning true). -/
theorem c4_round_trip_amended (E : RegexEngine) (m : SubMapSt C) (p : String)
    (c : C) (topics : List String)
    (hreg : getV m.subscribedTopics c = some topics)
    (hfresh : p ∉ topics)
    (hslot : hasSub E m.wildcard m.matchAny m.fpfx m.rpfx m.subscriptions
      (splitStr m.separator p) c = false)
    (hwf : WF m.subscriptions) :
    (SubMapSt.unsubscribe E (SubMapSt.subscribe E m p c).2 p c).2 = m
    ∧ (SubMapSt.subscribe E m p c).1 = true
    ∧ (SubMapSt.unsubscribe E (SubMapSt.subscribe E m p c).2 p c).1 = true := by
  have h1 : SubMapSt.subscribe E m p c = (true, { m with
      subscriptions := subscribeRec E m.wildcard m.matchAny m.fpfx m.rpfx
        m.subscriptions (splitStr m.separator p) c
      subscribedTopics := updV m.subscribedTopics c (insC p topics)
      subscriptionCount := m.subscriptionCount + 1 }) := by
    simp only [SubMapSt.subscribe, hreg, if_neg hfresh]
  have h2 : getV (updV m.subscribedTopics c (insC p topics)) c
      = some (insC p topics) := getV_updV_eq hreg
  have h3 : p ∈ insC p topics := mem_insC.mpr (Or.inr rfl)
  have h4 : SubMapSt.unsubscribe E (SubMapSt.subscribe E m p c).2 p c = (true, m) := by
    rw [h1]
    simp only [SubMapSt.unsubscribe, h2, if_pos h3]
    rw [ersC_insC hfresh, updV_updV, getV_updV_self hreg,
      unsub_sub_rec E m.wildcard m.matchAny m.fpfx m.rpfx
        (splitStr m.separator p) m.subscriptions c hwf hslot,
      Nat.add_sub_cancel]
  exact ⟨by rw [h4], by rw [h1], by rw [h4]⟩

/-- The C4 witness base state: a fresh map with client 1 registered. -/
def c4Base : SubMapSt Nat := (SubMapSt.new.registerClient 1).2

theorem c4_round_trip_amended_witness :
    (SubMapSt.unsubscribe noRegex
      (SubMapSt.subscribe noRegex c4Base "a" 1).2 "a" 1).2 = c4Base :=
  (c4_round_trip_amended noRegex c4Base "a" 1 [] (by decide) (by decide) (by decide)
    WF_empty).1

/-- A map with formula prefix `!` whose sole client subscribed to `a/!x`:
the formula segment fails to parse, so `subscribe_rec` aborts after having
created the literal child `a`, which is left empty. -/
def c4fBase : SubMapSt String :=
  (((SubMapSt.new.setFormulaPfx "!").registerClient "c1").2.subscribe noRegex
    "a/!x" "c1").2

/-- The no-empty-node proviso of the amended round trip is necessary and is
not implied by the other three conditions: after the formula-parse abort the
trie holds an empty non-root child `a`, the client is registered, the
pattern `a` is fresh and its slot does not hold the client, yet
`subscribe("a"); unsubscribe("a")` prunes the pre-existing empty child and
does not restore the state. -/
theorem formula_abort_empty_child :
    c4fBase.subscriptions.subtopics = [("a", Sub.empty)]
    ∧ getV c4fBase.subscribedTopics "c1" = some ["a/!x"]
    ∧ "a" ∉ (["a/!x"] : List String)
    ∧ hasSub noRegex c4fBase.wildcard c4fBase.matchAny c4fBase.fpfx c4fBase.rpfx
        c4fBase.subscriptions (splitStr c4fBase.separator "a") "c1" = false
    ∧ (SubMapSt.unsubscribe noRegex
        (SubMapSt.subscribe noRegex c4fBase "a" "c1").2
        "a" "c1").2.subscriptions.subtopics = []
    ∧ (SubMapSt.unsubscribe noRegex
        (SubMapSt.subscribe noRegex c4fBase "a" "c1").2 "a" "c1").2 ≠ c4fBase := by
  refine ⟨rfl, rfl, by decide, rfl, rfl, ?_⟩
  intro h
  exact absurd (congrArg (fun s => s.subscriptions.subtopics.length) h) (by decide)

end RoundTrip3


/-! ## Claim C5: `members_wildcard` accumulates strict descendants -/

section BcInv

variable {C : Type} [DecidableEq C]

@[simp] theorem Bc.childs_mk (a : List (String × Bc C)) b c d :
    (Bc.mk a b c d).childs = a := rfl

@[simp] theorem Bc.childsAny_mk (a : List (String × Bc C)) b c d :
    (Bc.mk a b c d).childsAny = b := rfl

@[simp] theorem Bc.members_mk (a : List (String × Bc C)) b c d :
    (Bc.mk a b c d).members = c := rfl

@[simp] theorem Bc.membersWildcard_mk (a : List (String × Bc C)) b c d :
    (Bc.mk a b c d).membersWildcard = d := rfl

@[simp] theorem Bc.childs_empty : (Bc.empty : Bc C).childs = [] := rfl

@[simp] theorem Bc.childsAny_empty : (Bc.empty : Bc C).childsAny = none := rfl

@[simp] theorem Bc.members_empty : (Bc.empty : Bc C).members = [] := rfl

@[simp] theorem Bc.membersWildcard_empty : (Bc.empty : Bc C).membersWildcard = [] := rfl

/-- One edge of a broadcast-trie path: a literal child or the `childs_any`
mirror. -/
inductive BEdge where
  | lit (s : String)
  | any
deriving DecidableEq, Repr

/-- Membership of `x` in the `members` set of the node at path `p`. -/
def memBb : Bc C → List BEdge → C → Bool
  | nd, [], x => decide (x ∈ nd.members)
  | nd, .lit u :: p, x =>
      match getV nd.childs u with
      | some b => memBb b p x
      | none => false
  | nd, .any :: p, x =>
      match nd.childsAny with
      | some b => memBb b p x
      | none => false

/-- Membership of `x` in the `members_wildcard` set of the node at path `p`. -/
def memWb : Bc C → List BEdge → C → Bool
  | nd, [], x => decide (x ∈ nd.membersWildcard)
  | nd, .lit u :: p, x =>
      match getV nd.childs u with
      | some b => memWb b p x
      | none => false
  | nd, .any :: p, x =>
      match nd.childsAny with
      | some b => memWb b p x
      | none => false

/-- All trie paths a registration with these segments creates `members`
entries at: each segment contributes its literal edge or the any-mirror. -/
def combosB : List String → List (List BEdge)
  | [] => [[]]
  | s :: sp =>
      ((combosB sp).map fun q => BEdge.lit s :: q)
      ++ ((combosB sp).map fun q => BEdge.any :: q)

/-- All strict prefixes of registration paths: the paths that receive the
`members_wildcard` insertion. -/
def properCombosB : List String → List (List BEdge)
  | [] => []
  | s :: sp =>
      [[]] ++ ((properCombosB sp).map fun q => BEdge.lit s :: q)
      ++ ((properCombosB sp).map fun q => BEdge.any :: q)

theorem memBb_empty : ∀ (p : List BEdge) (x : C), memBb Bc.empty p x = false := by
  intro p x
  cases p with
  | nil => simp [memBb]
  | cons e p => cases e <;> simp [memBb, getV]

theorem memWb_empty : ∀ (p : List BEdge) (x : C), memWb Bc.empty p x = false := by
  intro p x
  cases p with
  | nil => simp [memWb]
  | cons e p => cases e <;> simp [memWb, getV]

theorem combosB_ne_nil : ∀ (segs : List String), combosB segs ≠ [] := by
  intro segs
  cases segs with
  | nil => simp [combosB]
  | cons s sp =>
      simp only [combosB, ne_eq, List.append_eq_nil, List.map_eq_nil_iff]
      rintro ⟨h1, h2⟩
      exact combosB_ne_nil sp h1

theorem mem_combos_lit {u s : String} {p : List BEdge} {sp : List String} :
    (BEdge.lit u :: p ∈ combosB (s :: sp)) ↔ (u = s ∧ p ∈ combosB sp) := by
  simp only [combosB, List.mem_append, List.mem_map]
  constructor
  · rintro (⟨q, hq, heq⟩ | ⟨q, hq, heq⟩)
    · injection heq with h1 h2
      injection h1 with h3
      exact ⟨h3.symm, h2 ▸ hq⟩
    · injection heq with h1 h2
      exact absurd h1 (by simp)
  · rintro ⟨rfl, hp⟩
    exact Or.inl ⟨p, hp, rfl⟩

theorem mem_combos_any {s : String} {p : List BEdge} {sp : List String} :
    (BEdge.any :: p ∈ combosB (s :: sp)) ↔ p ∈ combosB sp := by
  simp only [combosB, List.mem_append, List.mem_map]
  constructor
  · rintro (⟨q, hq, heq⟩ | ⟨q, hq, heq⟩)
    · injection heq with h1 h2
      exact absurd h1 (by simp)
    · injection heq with h1 h2
      exact h2 ▸ hq
  · rintro hp
    exact Or.inr ⟨p, hp, rfl⟩

theorem nil_not_mem_combos_cons {s : String} {sp : List String} :
    ¬ (([] : List BEdge) ∈ combosB (s :: sp)) := by
  simp [combosB]

theorem mem_pcombos_lit {u s : String} {p : List BEdge} {sp : List String} :
    (BEdge.lit u :: p ∈ properCombosB (s :: sp)) ↔ (u = s ∧ p ∈ properCombosB sp) := by
  simp only [properCombosB, List.mem_append, List.mem_map, List.mem_singleton]
  constructor
  · rintro ((heq | ⟨q, hq, heq⟩) | ⟨q, hq, heq⟩)
    · exact absurd heq (by simp)
    · injection heq with h1 h2
      injection h1 with h3
      exact ⟨h3.symm, h2 ▸ hq⟩
    · injection heq with h1 h2
      exact absurd h1 (by simp)
  · rintro ⟨rfl, hp⟩
    exact Or.inl (Or.inr ⟨p, hp, rfl⟩)

theorem mem_pcombos_any {s : String} {p : List BEdge} {sp : List String} :
    (BEdge.any :: p ∈ properCombosB (s :: sp)) ↔ p ∈ properCombosB sp := by
  simp only [properCombosB, List.mem_append, List.mem_map, List.mem_singleton]
  constructor
  · rintro ((heq | ⟨q, hq, heq⟩) | ⟨q, hq, heq⟩)
    · exact absurd heq (by simp)
    · injection heq with h1 h2
      exact absurd h1 (by simp)
    · injection heq with h1 h2
      exact h2 ▸ hq
  · rintro hp
    exact Or.inr ⟨p, hp, rfl⟩

theorem nil_mem_pcombos_cons {s : String} {sp : List String} :
    ([] : List BEdge) ∈ properCombosB (s :: sp) := by
  simp [properCombosB]

/-- Effect of one registration on the member sets at every path. -/
theorem registerBc_effect :
    ∀ (segs : List String) (nd : Bc C) (c x : C) (p : List BEdge),
    (memBb (registerBcRec nd segs c) p x = true
      ↔ memBb nd p x = true ∨ (x = c ∧ p ∈ combosB segs))
    ∧ (memWb (registerBcRec nd segs c) p x = true
      ↔ memWb nd p x = true ∨ (x = c ∧ p ∈ properCombosB segs)) := by
  intro segs
  induction segs with
  | nil =>
      intro nd c x p
      cases p with
      | nil =>
          constructor
          · simp only [registerBcRec, memBb, Bc.members_mk, decide_eq_true_eq,
              mem_insC, combosB, List.mem_singleton]
            tauto
          · simp only [registerBcRec, memWb, Bc.membersWildcard_mk, properCombosB,
              List.not_mem_nil, and_false, or_false]
      | cons e p =>
          cases e with
          | lit u =>
              simp only [registerBcRec, memBb, memWb, Bc.childs_mk, combosB,
                List.mem_singleton, List.not_mem_nil]
              constructor <;>
                · constructor
                  · intro h
                    exact Or.inl h
                  · rintro (h | ⟨rfl, hcp⟩)
                    · exact h
                    · exfalso
                      revert hcp
                      simp [combosB, properCombosB]
          | any =>
              simp only [registerBcRec, memBb, memWb, Bc.childsAny_mk, combosB,
                List.mem_singleton, List.not_mem_nil]
              constructor <;>
                · constructor
                  · intro h
                    exact Or.inl h
                  · rintro (h | ⟨rfl, hcp⟩)
                    · exact h
                    · exfalso
                      revert hcp
                      simp [combosB, properCombosB]
  | cons s sp ih =>
      intro nd c x p
      cases p with
      | nil =>
          constructor
          · simp only [registerBcRec, memBb, Bc.members_mk]
            constructor
            · exact Or.inl
            · rintro (h | ⟨rfl, hcp⟩)
              · exact h
              · exact absurd hcp nil_not_mem_combos_cons
          · simp only [registerBcRec, memWb, Bc.membersWildcard_mk,
              decide_eq_true_eq, mem_insC]
            constructor
            · rintro h
              rcases (by simpa using h : x ∈ nd.membersWildcard ∨ x = c) with h2 | rfl
              · exact Or.inl (by simpa using h2)
              · exact Or.inr ⟨rfl, nil_mem_pcombos_cons⟩
            · rintro (h | ⟨rfl, hcp⟩)
              · exact Or.inl (by simpa using h)
              · exact Or.inr rfl
      | cons e p =>
          cases e with
          | lit u =>
              by_cases hus : u = s
              · subst hus
                cases hb : getV nd.childs u with
                | some b =>
                    have hget : getV (updV nd.childs u
                        (registerBcRec b sp c)) u = some (registerBcRec b sp c) :=
                      getV_updV_eq hb
                    constructor
                    · simp only [registerBcRec, memBb, Bc.childs_mk, hb, hget,
                        mem_combos_lit, true_and]
                      exact (ih b c x p).1
                    · simp only [registerBcRec, memWb, Bc.childs_mk, hb, hget,
                        mem_pcombos_lit, true_and]
                      exact (ih b c x p).2
                | none =>
                    have hget : getV (pushV nd.childs u
                        (registerBcRec Bc.empty sp c)) u
                        = some (registerBcRec Bc.empty sp c) := getV_pushV_eq hb
                    constructor
                    · simp only [registerBcRec, memBb, Bc.childs_mk, hb, hget,
                        mem_combos_lit, true_and]
                      rw [(ih Bc.empty c x p).1, memBb_empty]
                    · simp only [registerBcRec, memWb, Bc.childs_mk, hb, hget,
                        mem_pcombos_lit, true_and]
                      rw [(ih Bc.empty c x p).2, memWb_empty]
              · have hget : ∀ (v : Bc C),
                    (match getV nd.childs s with
                      | some b => getV (updV nd.childs s (registerBcRec b sp c)) u
                      | none => getV (pushV nd.childs s v) u) = getV nd.childs u := by
                  intro v
                  cases hb : getV nd.childs s with
                  | some b => exact getV_updV_ne fun he => hus he.symm
                  | none => exact getV_pushV_ne fun he => hus he.symm
                have hcombos : ¬ (BEdge.lit u :: p ∈ combosB (s :: sp)) := by
                  rw [mem_combos_lit]
                  rintro ⟨rfl, hcp⟩
                  exact hus rfl
                have hpcombos : ¬ (BEdge.lit u :: p ∈ properCombosB (s :: sp)) := by
                  rw [mem_pcombos_lit]
                  rintro ⟨rfl, hcp⟩
                  exact hus rfl
                constructor
                · simp only [registerBcRec, memBb, Bc.childs_mk]
                  cases hb : getV nd.childs s with
                  | some b =>
                      rw [getV_updV_ne fun he => hus he.symm]
                      simp [hcombos]
                  | none =>
                      rw [getV_pushV_ne fun he => hus he.symm]
                      simp [hcombos]
                · simp only [registerBcRec, memWb, Bc.childs_mk]
                  cases hb : getV nd.childs s with
                  | some b =>
                      rw [getV_updV_ne fun he => hus he.symm]
                      simp [hpcombos]
                  | none =>
                      rw [getV_pushV_ne fun he => hus he.symm]
                      simp [hpcombos]
          | any =>
              cases hca : nd.childsAny with
              | some b =>
                  constructor
                  · simp only [registerBcRec, memBb, Bc.childsAny_mk, hca,
                      mem_combos_any]
                    exact (ih b c x p).1
                  · simp only [registerBcRec, memWb, Bc.childsAny_mk, hca,
                      mem_pcombos_any]
                    exact (ih b c x p).2
              | none =>
                  constructor
                  · simp only [registerBcRec, memBb, Bc.childsAny_mk, hca,
                      mem_combos_any]
                    rw [(ih Bc.empty c x p).1, memBb_empty]
                  · simp only [registerBcRec, memWb, Bc.childsAny_mk, hca,
                      mem_pcombos_any]
                    rw [(ih Bc.empty c x p).2, memWb_empty]

end BcInv


section BcInv2

variable {C : Type} [DecidableEq C]

/-- Broadcast-map states reachable by a sequence of registrations, with
the ghost list of live (client, segment-list) registrations. -/
inductive BcBuilt : Bc C → List (C × List String) → Prop where
  | init : BcBuilt Bc.empty []
  | register (nd : Bc C) (R : List (C × List String)) (segs : List String) (c : C) :
      BcBuilt nd R → BcBuilt (registerBcRec nd segs c) ((c, segs) :: R)

/-- Full characterisation of a register-only broadcast trie: `members` at a
path holds exactly the clients registered with a segment list whose combo
set contains the path, and `members_wildcard` exactly those whose strict
prefixes contain it. -/
theorem bcBuilt_char {nd : Bc C} {R : List (C × List String)} (h : BcBuilt nd R) :
    ∀ (p : List BEdge) (x : C),
    (memBb nd p x = true ↔ ∃ segs, (x, segs) ∈ R ∧ p ∈ combosB segs)
    ∧ (memWb nd p x = true ↔ ∃ segs, (x, segs) ∈ R ∧ p ∈ properCombosB segs) := by
  induction h with
  | init =>
      intro p x
      constructor
      · rw [memBb_empty]
        simp
      · rw [memWb_empty]
        simp
  | register nd R segs c hb ih =>
      intro p x
      constructor
      · rw [(registerBc_effect segs nd c x p).1, (ih p x).1]
        constructor
        · rintro (⟨segs2, hmem, hcp⟩ | ⟨rfl, hcp⟩)
          · exact ⟨segs2, List.mem_cons_of_mem _ hmem, hcp⟩
          · exact ⟨segs, List.mem_cons_self _ _, hcp⟩
        · rintro ⟨segs2, hmem, hcp⟩
          rcases List.mem_cons.mp hmem with heq | hmem2
          · injection heq with h1 h2
            subst h1
            subst h2
            exact Or.inr ⟨rfl, hcp⟩
          · exact Or.inl ⟨segs2, hmem2, hcp⟩
      · rw [(registerBc_effect segs nd c x p).2, (ih p x).2]
        constructor
        · rintro (⟨segs2, hmem, hcp⟩ | ⟨rfl, hcp⟩)
          · exact ⟨segs2, List.mem_cons_of_mem _ hmem, hcp⟩
          · exact ⟨segs, List.mem_cons_self _ _, hcp⟩
        · rintro ⟨segs2, hmem, hcp⟩
          rcases List.mem_cons.mp hmem with heq | hmem2
          · injection heq with h1 h2
            subst h1
            subst h2
            exact Or.inr ⟨rfl, hcp⟩
          · exact Or.inl ⟨segs2, hmem2, hcp⟩

/-- A path is a strict-prefix combo exactly when it extends to a full combo
by a non-empty suffix. -/
theorem mem_pcombos_iff : ∀ (segs : List String) (p : List BEdge),
    p ∈ properCombosB segs ↔ ∃ q, q ≠ [] ∧ p ++ q ∈ combosB segs := by
  intro segs
  induction segs with
  | nil =>
      intro p
      simp only [properCombosB, List.not_mem_nil, false_iff, not_exists]
      rintro q ⟨hq, hin⟩
      simp only [combosB, List.mem_singleton, List.append_eq_nil] at hin
      exact hq hin.2
  | cons s sp ih =>
      intro p
      cases p with
      | nil =>
          simp only [nil_mem_pcombos_cons, true_iff]
          obtain ⟨r, hr⟩ := List.exists_mem_of_ne_nil _ (combosB_ne_nil sp)
          exact ⟨BEdge.lit s :: r, by simp, by
            rw [List.nil_append]
            exact mem_combos_lit.mpr ⟨rfl, hr⟩⟩
      | cons e p2 =>
          cases e with
          | lit u =>
              rw [mem_pcombos_lit]
              constructor
              · rintro ⟨rfl, hp⟩
                obtain ⟨q, hq, hin⟩ := (ih p2).mp hp
                exact ⟨q, hq, by
                  rw [List.cons_append]
                  exact mem_combos_lit.mpr ⟨rfl, hin⟩⟩
              · rintro ⟨q, hq, hin⟩
                rw [List.cons_append, mem_combos_lit] at hin
                exact ⟨hin.1, (ih p2).mpr ⟨q, hq, hin.2⟩⟩
          | any =>
              rw [mem_pcombos_any]
              constructor
              · rintro hp
                obtain ⟨q, hq, hin⟩ := (ih p2).mp hp
                exact ⟨q, hq, by
                  rw [List.cons_append]
                  exact mem_combos_any.mpr hin⟩
              · rintro ⟨q, hq, hin⟩
                rw [List.cons_append, mem_combos_any] at hin
                exact (ih p2).mpr ⟨q, hq, hin⟩

/-- C5 (amended): in every broadcast trie reachable by registrations, the
`members_wildcard` set of the node at any path `p` holds exactly the
clients registered at a STRICT descendant of `p` — not those registered at
`p` itself (so `get_clients_by_mask(name/(wildcard))` does not include a
client registered exactly at `name`). -/
theorem c5_members_wildcard_amended (nd : Bc C) (R : List (C × List String))
    (h : BcBuilt nd R) (p : List BEdge) (x : C) :
    memWb nd p x = true ↔ ∃ q, q ≠ [] ∧ memBb nd (p ++ q) x = true := by
  rw [(bcBuilt_char h p x).2]
  constructor
  · rintro ⟨segs, hmem, hp⟩
    obtain ⟨q, hq, hin⟩ := (mem_pcombos_iff segs p).mp hp
    exact ⟨q, hq, (bcBuilt_char h (p ++ q) x).1.mpr ⟨segs, hmem, hin⟩⟩
  · rintro ⟨q, hq, hmm⟩
    obtain ⟨segs, hmem, hin⟩ := (bcBuilt_char h (p ++ q) x).1.mp hmm
    exact ⟨segs, hmem, (mem_pcombos_iff segs p).mpr ⟨q, hq, hin⟩⟩

theorem c5_members_wildcard_amended_witness :
    memWb (registerBcRec (Bc.empty : Bc Nat) ["a", "b"] 1) [BEdge.lit "a"] 1 = true :=
  (c5_members_wildcard_amended (registerBcRec Bc.empty ["a", "b"] 1)
    [(1, ["a", "b"])]
    (BcBuilt.register Bc.empty [] ["a", "b"] 1 BcBuilt.init)
    [BEdge.lit "a"] 1).mpr ⟨[BEdge.lit "b"], by decide, by decide⟩

end BcInv2


/-! ## Claim C3: reverse-index consistency -/

section RevIndex

variable {C : Type} [DecidableEq C]

/-- One edge of a subscription-trie path in the wildcard/match-any/literal
fragment: a literal child or the `subtopics_any` child. -/
inductive SEdge where
  | lit (s : String)
  | any
deriving DecidableEq, Repr

/-- Membership of `x` in the `subscribers` set of the node at path `p`. -/
def memSb : Sub C → List SEdge → C → Bool
  | nd, [], x => decide (x ∈ nd.subscribers)
  | nd, .lit u :: p, x =>
      match getV nd.subtopics u with
      | some b => memSb b p x
      | none => false
  | nd, .any :: p, x =>
      match nd.subtopicsAny with
      | some b => memSb b p x
      | none => false

/-- Membership of `x` in the `sub_any` (wildcard member) set of the node at
path `p`. -/
def memWSb : Sub C → List SEdge → C → Bool
  | nd, [], x => decide (x ∈ nd.subAny)
  | nd, .lit u :: p, x =>
      match getV nd.subtopics u with
      | some b => memWSb b p x
      | none => false
  | nd, .any :: p, x =>
      match nd.subtopicsAny with
      | some b => memWSb b p x
      | none => false

/-- The trie slot a pattern's segments target under singleton wildcard `w`
and match-any token `mm`: the path of edges descended, and whether the
pattern terminates in the wildcard set (`true`) or the members set. -/
def subPath (w mm : String) : List String → List SEdge × Bool
  | [] => ([], false)
  | s :: rest =>
      if s = w then ([], true)
      else if s = mm then
        ((subPath w mm rest).1.cons SEdge.any, (subPath w mm rest).2)
      else
        ((subPath w mm rest).1.cons (SEdge.lit s), (subPath w mm rest).2)

/-- A pattern uses the wildcard token only as its final segment. -/
def goodPat (w : String) : List String → Bool
  | [] => true
  | s :: rest => if s = w then rest.isEmpty else goodPat w rest

theorem memSb_empty : ∀ (p : List SEdge) (x : C), memSb Sub.empty p x = false := by
  intro p x
  cases p with
  | nil => simp [memSb]
  | cons e p => cases e <;> simp [memSb, getV]

theorem memWSb_empty : ∀ (p : List SEdge) (x : C), memWSb Sub.empty p x = false := by
  intro p x
  cases p with
  | nil => simp [memWSb]
  | cons e p => cases e <;> simp [memWSb, getV]

/-- A shallowly empty node has no memberships at any path: all its sets and
child containers are empty. -/
theorem mem_of_emptyS {nd : Sub C} (h : nd.isEmptyS = true) :
    ∀ (p : List SEdge) (x : C), memSb nd p x = false ∧ memWSb nd p x = false := by
  intro p x
  cases nd with
  | mk subs st bf br sa wa =>
      simp only [Sub.isEmptyS, Bool.and_eq_true, List.isEmpty_iff,
        Option.isNone_iff_eq_none] at h
      obtain ⟨⟨⟨⟨⟨h1, h2⟩, h3⟩, h4⟩, h5⟩, h6⟩ := h
      subst h1; subst h2; subst h5; subst h6
      cases p with
      | nil => simp [memSb, memWSb]
      | cons e p => cases e <;> simp [memSb, memWSb, getV]

/-- Well-formedness of a clean-configuration trie: no formula or regex
children anywhere, duplicate-free child keys and member sets. -/
inductive Tidy : Sub C → Prop where
  | mk (nd : Sub C) :
      nd.subByFormula = [] →
      nd.subByRegex = [] →
      (nd.subtopics.map fun p => p.1).Nodup →
      nd.subscribers.Nodup →
      nd.subAny.Nodup →
      (∀ p ∈ nd.subtopics, Tidy p.2) →
      (∀ s, nd.subtopicsAny = some s → Tidy s) →
      Tidy nd

theorem Tidy_empty : Tidy (Sub.empty : Sub C) :=
  Tidy.mk Sub.empty rfl rfl (by simp) (by simp) (by simp) (by simp) (by simp)

theorem tidy_fields {nd : Sub C} (h : Tidy nd) :
    nd.subByFormula = [] ∧ nd.subByRegex = []
    ∧ (nd.subtopics.map fun p => p.1).Nodup
    ∧ nd.subscribers.Nodup ∧ nd.subAny.Nodup
    ∧ (∀ p ∈ nd.subtopics, Tidy p.2)
    ∧ (∀ s, nd.subtopicsAny = some s → Tidy s) := by
  cases h with
  | mk nd h1 h2 h3 h4 h5 h6 h7 => exact ⟨h1, h2, h3, h4, h5, h6, h7⟩

theorem keys_updV_gen {K V : Type} [DecidableEq K] {l : List (K × V)} {k : K}
    {v : V} : ((updV l k v).map fun p => p.1) = l.map fun p => p.1 := by
  induction l with
  | nil => simp [updV]
  | cons p l ih =>
      by_cases hp : p.1 = k
      · simp [updV, hp]
      · simp only [updV, if_neg hp, List.map_cons]
        rw [ih]

theorem keys_pushV_nodup {K V : Type} [DecidableEq K] {l : List (K × V)} {k : K}
    {v : V} (hn : (l.map fun p => p.1).Nodup) (hg : getV l k = none) :
    ((pushV l k v).map fun p => p.1).Nodup := by
  have hnotin : k ∉ l.map fun p => p.1 := by
    intro hc
    obtain ⟨p, hp, he⟩ := List.mem_map.mp hc
    have hpk : p = (k, p.2) := Prod.ext_iff.mpr ⟨he, rfl⟩
    rw [hpk] at hp
    exact getV_none_not_mem hg p.2 hp
  have hperm : ((pushV l k v).map fun p => p.1).Perm (k :: l.map fun p => p.1) := by
    simp only [pushV, List.map_append, List.map_cons, List.map_nil]
    exact List.perm_append_singleton k _
  exact hperm.nodup_iff.mpr (List.nodup_cons.mpr ⟨hnotin, hn⟩)

theorem mem_updV_gen {K V : Type} [DecidableEq K] {l : List (K × V)} {k : K}
    {v : V} {p : K × V} (h : p ∈ updV l k v) : p ∈ l ∨ p = (k, v) := by
  induction l with
  | nil => simp [updV] at h
  | cons q l ih =>
      by_cases hq : q.1 = k
      · simp only [updV, if_pos hq] at h
        rcases List.mem_cons.mp h with rfl | h2
        · exact Or.inr rfl
        · exact Or.inl (List.mem_cons_of_mem q h2)
      · simp only [updV, if_neg hq] at h
        rcases List.mem_cons.mp h with rfl | h2
        · exact Or.inl (List.mem_cons_self _ _)
        · rcases ih h2 with h3 | h3
          · exact Or.inl (List.mem_cons_of_mem q h3)
          · exact Or.inr h3

/-- Subscribing preserves cleanliness (with no formula or regex prefix
configured and singleton token sets). -/
theorem tidy_subscribeRec (E : RegexEngine) (w mm : String) :
    ∀ (segs : List String) (nd : Sub C) (c : C), Tidy nd →
    Tidy (subscribeRec E [w] [mm] none none nd segs c) := by
  intro segs
  induction segs with
  | nil =>
      intro nd c ht
      obtain ⟨h1, h2, h3, h4, h5, h6, h7⟩ := tidy_fields ht
      exact Tidy.mk _ (by simpa using h1) (by simpa using h2) (by simpa using h3)
        (by simpa using insC_nodup h4) (by simpa using h5) (by simpa using h6)
        (by simpa using h7)
  | cons t sp ih =>
      intro nd c ht
      obtain ⟨h1, h2, h3, h4, h5, h6, h7⟩ := tidy_fields ht
      by_cases hw : t ∈ ([w] : List String)
      · simp only [subscribeRec, if_pos hw]
        exact Tidy.mk _ (by simpa using h1) (by simpa using h2) (by simpa using h3)
          (by simpa using h4) (by simpa using insC_nodup h5) (by simpa using h6)
          (by simpa using h7)
      · by_cases hm : t ∈ ([mm] : List String)
        · cases hsa : nd.subtopicsAny with
          | some sub =>
              simp only [subscribeRec, if_neg hw, if_pos hm, hsa]
              refine Tidy.mk _ (by simpa using h1) (by simpa using h2)
                (by simpa using h3) (by simpa using h4) (by simpa using h5)
                (by simpa using h6) ?_
              intro s hs
              simp only [Sub.subtopicsAny_mk, Option.some_inj] at hs
              subst hs
              exact ih sub c (h7 sub hsa)
          | none =>
              simp only [subscribeRec, if_neg hw, if_pos hm, hsa]
              refine Tidy.mk _ (by simpa using h1) (by simpa using h2)
                (by simpa using h3) (by simpa using h4) (by simpa using h5)
                (by simpa using h6) ?_
              intro s hs
              simp only [Sub.subtopicsAny_mk, Option.some_inj] at hs
              subst hs
              exact ih Sub.empty c Tidy_empty
        · simp only [subscribeRec, if_neg hw, if_neg hm, Option.none_bind]
          cases hg : getV nd.subtopics t with
          | some sub =>
              simp only [hg]
              refine Tidy.mk _ (by simpa using h1) (by simpa using h2)
                (by simpa [keys_updV_gen] using h3) (by simpa using h4)
                (by simpa using h5) ?_ (by simpa using h7)
              intro p hp
              simp only [Sub.subtopics_mk] at hp
              rcases mem_updV_gen hp with h8 | h8
              · exact h6 p h8
              · subst h8
                exact ih sub c (h6 (t, sub) (getV_mem hg))
          | none =>
              simp only [hg]
              refine Tidy.mk _ (by simpa using h1) (by simpa using h2)
                (by simpa using keys_pushV_nodup h3 hg) (by simpa using h4)
                (by simpa using h5) ?_ (by simpa using h7)
              intro p hp
              simp only [Sub.subtopics_mk, pushV] at hp
              rcases List.mem_append.mp hp with h8 | h8
              · exact h6 p h8
              · simp only [List.mem_singleton] at h8
                subst h8
                exact ih Sub.empty c Tidy_empty

/-- Unsubscribing preserves cleanliness. -/
theorem tidy_unsubscribeRec (E : RegexEngine) (w mm : String) :
    ∀ (segs : List String) (nd : Sub C) (c : C), Tidy nd →
    Tidy (unsubscribeRec E [w] [mm] none none nd segs c) := by
  intro segs
  induction segs with
  | nil =>
      intro nd c ht
      obtain ⟨h1, h2, h3, h4, h5, h6, h7⟩ := tidy_fields ht
      exact Tidy.mk _ (by simpa using h1) (by simpa using h2) (by simpa using h3)
        (by simpa using (ersC_sublist c nd.subscribers).nodup h4)
        (by simpa using h5) (by simpa using h6) (by simpa using h7)
  | cons t sp ih =>
      intro nd c ht
      obtain ⟨h1, h2, h3, h4, h5, h6, h7⟩ := tidy_fields ht
      by_cases hw : t ∈ ([w] : List String)
      · simp only [unsubscribeRec, if_pos hw]
        exact Tidy.mk _ (by simpa using h1) (by simpa using h2) (by simpa using h3)
          (by simpa using h4)
          (by simpa using (ersC_sublist c nd.subAny).nodup h5)
          (by simpa using h6) (by simpa using h7)
      · by_cases hm : t ∈ ([mm] : List String)
        · cases hsa : nd.subtopicsAny with
          | some sub =>
              simp only [unsubscribeRec, if_neg hw, if_pos hm, hsa]
              split
              · exact Tidy.mk _ (by simpa using h1) (by simpa using h2)
                  (by simpa using h3) (by simpa using h4) (by simpa using h5)
                  (by simpa using h6) (by simp)
              · refine Tidy.mk _ (by simpa using h1) (by simpa using h2)
                  (by simpa using h3) (by simpa using h4) (by simpa using h5)
                  (by simpa using h6) ?_
                intro s hs
                simp only [Sub.subtopicsAny_mk, Option.some_inj] at hs
                subst hs
                exact ih sub c (h7 sub hsa)
          | none =>
              simp only [unsubscribeRec, if_neg hw, if_pos hm, hsa]
              exact ht
        · simp only [unsubscribeRec, if_neg hw, if_neg hm, Option.none_bind]
          cases hg : getV nd.subtopics t with
          | some sub =>
              simp only [hg]
              split
              · refine Tidy.mk _ (by simpa using h1) (by simpa using h2)
                  (by simpa using ((eraseV_sublist nd.subtopics t).map _).nodup h3)
                  (by simpa using h4) (by simpa using h5) ?_ (by simpa using h7)
                intro p hp
                simp only [Sub.subtopics_mk] at hp
                exact h6 p ((eraseV_sublist nd.subtopics t).mem hp)
              · refine Tidy.mk _ (by simpa using h1) (by simpa using h2)
                  (by simpa [keys_updV_gen] using h3) (by simpa using h4)
                  (by simpa using h5) ?_ (by simpa using h7)
                intro p hp
                simp only [Sub.subtopics_mk] at hp
                rcases mem_updV_gen hp with h8 | h8
                · exact h6 p h8
                · subst h8
                  exact ih sub c (h6 (t, sub) (getV_mem hg))
          | none =>
              simp only [hg]
              exact ht

end RevIndex

section RevIndexEffect

variable {C : Type} [DecidableEq C]

theorem getV_eraseV_self {K V : Type} [DecidableEq K] {l : List (K × V)} {k : K}
    (hnd : (l.map fun p => p.1).Nodup) : getV (eraseV l k) k = none := by
  induction l with
  | nil => simp [eraseV, getV]
  | cons p l ih =>
      simp only [List.map_cons, List.nodup_cons] at hnd
      by_cases hp : p.1 = k
      · simp only [eraseV, if_pos hp]
        cases hg : getV l k with
        | none => rfl
        | some v =>
            exfalso
            exact hnd.1 (hp ▸ List.mem_map.mpr ⟨(k, v), getV_mem hg, rfl⟩)
      · simp only [eraseV, if_neg hp, getV, if_neg hp]
        exact ih hnd.2

theorem getV_eraseV_ne {K V : Type} [DecidableEq K] {l : List (K × V)} {k k' : K}
    (h : k ≠ k') : getV (eraseV l k) k' = getV l k' := by
  induction l with
  | nil => simp [eraseV]
  | cons p l ih =>
      by_cases hp : p.1 = k
      · subst hp
        simp [eraseV, getV, h]
      · simp only [eraseV, if_neg hp, getV]
        by_cases hq : p.1 = k'
        · simp [if_pos hq]
        · simp [if_neg hq, ih]

theorem pair_cons_iff {e : SEdge} {pr : List SEdge × Bool} {q : List SEdge}
    {b : Bool} : (pr.1.cons e, pr.2) = (e :: q, b) ↔ pr = (q, b) := by
  cases pr
  simp [Prod.ext_iff]

/-- Effect of `subscribe_rec` on the member sets of every trie slot, for a
singleton wildcard `w` and match-any token `mm` and no formula or regex
prefix: membership is the old membership, or the subscribing client at
exactly the slot the pattern's segments address. -/
theorem sub_rec_effect (E : RegexEngine) (w mm : String) :
    ∀ (segs : List String) (nd : Sub C) (c x : C) (p : List SEdge),
    (memSb (subscribeRec E [w] [mm] none none nd segs c) p x = true ↔
      memSb nd p x = true ∨ (x = c ∧ subPath w mm segs = (p, false)))
    ∧ (memWSb (subscribeRec E [w] [mm] none none nd segs c) p x = true ↔
      memWSb nd p x = true ∨ (x = c ∧ subPath w mm segs = (p, true))) := by
  intro segs
  induction segs with
  | nil =>
      intro nd c x p
      simp only [subscribeRec]
      cases p with
      | nil => refine ⟨?_, ?_⟩ <;> simp [memSb, memWSb, subPath, mem_insC]
      | cons e q => cases e <;> refine ⟨?_, ?_⟩ <;> simp [memSb, memWSb, subPath]
  | cons t sp ih =>
      intro nd c x p
      by_cases hw : t = w
      · have hmem : t ∈ ([w] : List String) := by simp [hw]
        have hsp : subPath w mm (t :: sp) = ([], true) := by simp [subPath, hw]
        simp only [subscribeRec, if_pos hmem, hsp]
        cases p with
        | nil => refine ⟨?_, ?_⟩ <;> simp [memSb, memWSb, mem_insC]
        | cons e q => cases e <;> refine ⟨?_, ?_⟩ <;> simp [memSb, memWSb]
      · by_cases hm : t = mm
        · subst hm
          have hnw : t ∉ ([w] : List String) := by simp [hw]
          have hma : t ∈ ([t] : List String) := by simp
          have hsp : subPath w t (t :: sp) =
              ((subPath w t sp).1.cons SEdge.any, (subPath w t sp).2) := by
            simp [subPath, hw]
          cases hsa : nd.subtopicsAny with
          | some sub =>
              simp only [subscribeRec, if_neg hnw, if_pos hma, hsa, hsp]
              cases p with
              | nil => refine ⟨?_, ?_⟩ <;> simp [memSb, memWSb]
              | cons e q =>
                  cases e with
                  | lit u => refine ⟨?_, ?_⟩ <;> simp [memSb, memWSb]
                  | any =>
                      refine ⟨?_, ?_⟩
                      · simp only [memSb, Sub.subtopicsAny_mk, hsa, pair_cons_iff]
                        exact (ih sub c x q).1
                      · simp only [memWSb, Sub.subtopicsAny_mk, hsa, pair_cons_iff]
                        exact (ih sub c x q).2
          | none =>
              simp only [subscribeRec, if_neg hnw, if_pos hma, hsa, hsp]
              cases p with
              | nil => refine ⟨?_, ?_⟩ <;> simp [memSb, memWSb]
              | cons e q =>
                  cases e with
                  | lit u => refine ⟨?_, ?_⟩ <;> simp [memSb, memWSb]
                  | any =>
                      refine ⟨?_, ?_⟩
                      · simp only [memSb, Sub.subtopicsAny_mk, hsa, pair_cons_iff]
                        rw [(ih Sub.empty c x q).1, memSb_empty]
                      · simp only [memWSb, Sub.subtopicsAny_mk, hsa, pair_cons_iff]
                        rw [(ih Sub.empty c x q).2, memWSb_empty]
        · have hnw : t ∉ ([w] : List String) := by simp [hw]
          have hnm : t ∉ ([mm] : List String) := by simp [hm]
          have hsp : subPath w mm (t :: sp) =
              ((subPath w mm sp).1.cons (SEdge.lit t), (subPath w mm sp).2) := by
            simp [subPath, hw, hm]
          simp only [subscribeRec, if_neg hnw, if_neg hnm, Option.none_bind, hsp]
          cases hg : getV nd.subtopics t with
          | some sub =>
              simp only [hg]
              cases p with
              | nil => refine ⟨?_, ?_⟩ <;> simp [memSb, memWSb]
              | cons e q =>
                  cases e with
                  | any => refine ⟨?_, ?_⟩ <;> simp [memSb, memWSb]
                  | lit u =>
                      by_cases hu : u = t
                      · subst hu
                        refine ⟨?_, ?_⟩
                        · simp only [memSb, Sub.subtopics_mk, getV_updV_eq hg,
                            hg, pair_cons_iff]
                          exact (ih sub c x q).1
                        · simp only [memWSb, Sub.subtopics_mk, getV_updV_eq hg,
                            hg, pair_cons_iff]
                          exact (ih sub c x q).2
                      · have hu' : t ≠ u := fun h => hu h.symm
                        refine ⟨?_, ?_⟩ <;>
                          simp [memSb, memWSb, getV_updV_ne hu', hu']
          | none =>
              simp only [hg]
              cases p with
              | nil => refine ⟨?_, ?_⟩ <;> simp [memSb, memWSb]
              | cons e q =>
                  cases e with
                  | any => refine ⟨?_, ?_⟩ <;> simp [memSb, memWSb]
                  | lit u =>
                      by_cases hu : u = t
                      · subst hu
                        refine ⟨?_, ?_⟩
                        · simp only [memSb, Sub.subtopics_mk, getV_pushV_eq hg,
                            hg, pair_cons_iff]
                          rw [(ih Sub.empty c x q).1, memSb_empty]
                        · simp only [memWSb, Sub.subtopics_mk, getV_pushV_eq hg,
                            hg, pair_cons_iff]
                          rw [(ih Sub.empty c x q).2, memWSb_empty]
                      · have hu' : t ≠ u := fun h => hu h.symm
                        refine ⟨?_, ?_⟩ <;>
                          simp [memSb, memWSb, getV_pushV_ne hu', hu']

/-- Effect of `unsubscribe_rec` on a clean trie: membership is the old
membership minus the removed client at exactly the slot the pattern's
segments address. -/
theorem unsub_rec_effect (E : RegexEngine) (w mm : String) :
    ∀ (segs : List String) (nd : Sub C) (c x : C) (p : List SEdge), Tidy nd →
    (memSb (unsubscribeRec E [w] [mm] none none nd segs c) p x = true ↔
      memSb nd p x = true ∧ ¬(x = c ∧ subPath w mm segs = (p, false)))
    ∧ (memWSb (unsubscribeRec E [w] [mm] none none nd segs c) p x = true ↔
      memWSb nd p x = true ∧ ¬(x = c ∧ subPath w mm segs = (p, true))) := by
  intro segs
  induction segs with
  | nil =>
      intro nd c x p ht
      obtain ⟨h1, h2, h3, h4, h5, h6, h7⟩ := tidy_fields ht
      simp only [unsubscribeRec]
      cases p with
      | nil =>
          refine ⟨?_, ?_⟩
          · simp only [memSb, Sub.subscribers_mk, subPath, decide_eq_true_eq,
              mem_ersC h4]
            tauto
          · simp [memWSb, subPath]
      | cons e q => cases e <;> refine ⟨?_, ?_⟩ <;> simp [memSb, memWSb, subPath]
  | cons t sp ih =>
      intro nd c x p ht
      obtain ⟨h1, h2, h3, h4, h5, h6, h7⟩ := tidy_fields ht
      by_cases hw : t = w
      · have hmem : t ∈ ([w] : List String) := by simp [hw]
        have hsp : subPath w mm (t :: sp) = ([], true) := by simp [subPath, hw]
        simp only [unsubscribeRec, if_pos hmem, hsp]
        cases p with
        | nil =>
            refine ⟨?_, ?_⟩
            · simp [memSb]
            · simp only [memWSb, Sub.subAny_mk, decide_eq_true_eq, mem_ersC h5]
              tauto
        | cons e q => cases e <;> refine ⟨?_, ?_⟩ <;> simp [memSb, memWSb]
      · by_cases hm : t = mm
        · subst hm
          have hnw : t ∉ ([w] : List String) := by simp [hw]
          have hma : t ∈ ([t] : List String) := by simp
          have hsp : subPath w t (t :: sp) =
              ((subPath w t sp).1.cons SEdge.any, (subPath w t sp).2) := by
            simp [subPath, hw]
          cases hsa : nd.subtopicsAny with
          | some sub =>
              have htsub : Tidy sub := h7 sub hsa
              simp only [unsubscribeRec, if_neg hnw, if_pos hma, hsa, hsp]
              split
              · rename_i hemp
                cases p with
                  | nil => refine ⟨?_, ?_⟩ <;> simp [memSb, memWSb]
                  | cons e q =>
                      cases e with
                      | lit u => refine ⟨?_, ?_⟩ <;> simp [memSb, memWSb]
                      | any =>
                          refine ⟨?_, ?_⟩
                          · simp only [memSb, Sub.subtopicsAny_mk, hsa,
                              pair_cons_iff]
                            rw [← (ih sub c x q htsub).1,
                              (mem_of_emptyS hemp q x).1]
                          · simp only [memWSb, Sub.subtopicsAny_mk, hsa,
                              pair_cons_iff]
                            rw [← (ih sub c x q htsub).2,
                              (mem_of_emptyS hemp q x).2]
              · rename_i hemp
                cases p with
                  | nil => refine ⟨?_, ?_⟩ <;> simp [memSb, memWSb]
                  | cons e q =>
                      cases e with
                      | lit u => refine ⟨?_, ?_⟩ <;> simp [memSb, memWSb]
                      | any =>
                          refine ⟨?_, ?_⟩
                          · simp only [memSb, Sub.subtopicsAny_mk, hsa,
                              pair_cons_iff]
                            exact (ih sub c x q htsub).1
                          · simp only [memWSb, Sub.subtopicsAny_mk, hsa,
                              pair_cons_iff]
                            exact (ih sub c x q htsub).2
          | none =>
              simp only [unsubscribeRec, if_neg hnw, if_pos hma, hsa, hsp]
              cases p with
              | nil => refine ⟨?_, ?_⟩ <;> simp [memSb, memWSb]
              | cons e q =>
                  cases e with
                  | lit u => refine ⟨?_, ?_⟩ <;> simp [memSb, memWSb]
                  | any =>
                      refine ⟨?_, ?_⟩ <;>
                        simp [memSb, memWSb, hsa]
        · have hnw : t ∉ ([w] : List String) := by simp [hw]
          have hnm : t ∉ ([mm] : List String) := by simp [hm]
          have hsp : subPath w mm (t :: sp) =
              ((subPath w mm sp).1.cons (SEdge.lit t), (subPath w mm sp).2) := by
            simp [subPath, hw, hm]
          simp only [unsubscribeRec, if_neg hnw, if_neg hnm, Option.none_bind, hsp]
          cases hg : getV nd.subtopics t with
          | some sub =>
              have htsub : Tidy sub := h6 (t, sub) (getV_mem hg)
              simp only [hg]
              split
              · rename_i hemp
                cases p with
                  | nil => refine ⟨?_, ?_⟩ <;> simp [memSb, memWSb]
                  | cons e q =>
                      cases e with
                      | any => refine ⟨?_, ?_⟩ <;> simp [memSb, memWSb]
                      | lit u =>
                          by_cases hu : u = t
                          · subst hu
                            refine ⟨?_, ?_⟩
                            · simp only [memSb, Sub.subtopics_mk,
                                getV_eraseV_self h3, hg, pair_cons_iff]
                              rw [← (ih sub c x q htsub).1,
                                (mem_of_emptyS hemp q x).1]
                            · simp only [memWSb, Sub.subtopics_mk,
                                getV_eraseV_self h3, hg, pair_cons_iff]
                              rw [← (ih sub c x q htsub).2,
                                (mem_of_emptyS hemp q x).2]
                          · have hu' : t ≠ u := fun h => hu h.symm
                            refine ⟨?_, ?_⟩ <;>
                              simp [memSb, memWSb, getV_eraseV_ne hu', hu']
              · rename_i hemp
                cases p with
                  | nil => refine ⟨?_, ?_⟩ <;> simp [memSb, memWSb]
                  | cons e q =>
                      cases e with
                      | any => refine ⟨?_, ?_⟩ <;> simp [memSb, memWSb]
                      | lit u =>
                          by_cases hu : u = t
                          · subst hu
                            refine ⟨?_, ?_⟩
                            · simp only [memSb, Sub.subtopics_mk,
                                getV_updV_eq hg, hg, pair_cons_iff]
                              exact (ih sub c x q htsub).1
                            · simp only [memWSb, Sub.subtopics_mk,
                                getV_updV_eq hg, hg, pair_cons_iff]
                              exact (ih sub c x q htsub).2
                          · have hu' : t ≠ u := fun h => hu h.symm
                            refine ⟨?_, ?_⟩ <;>
                              simp [memSb, memWSb, getV_updV_ne hu', hu']
          | none =>
              simp only [hg]
              cases p with
              | nil => refine ⟨?_, ?_⟩ <;> simp [memSb, memWSb]
              | cons e q =>
                  cases e with
                  | any => refine ⟨?_, ?_⟩ <;> simp [memSb, memWSb]
                  | lit u =>
                      by_cases hu : u = t
                      · subst hu
                        refine ⟨?_, ?_⟩ <;> simp [memSb, memWSb, hg]
                      · have hu' : t ≠ u := fun h => hu h.symm
                        refine ⟨?_, ?_⟩ <;> simp [memSb, memWSb, hu']

end RevIndexEffect

section RevIndexInv

variable {C : Type} [DecidableEq C]

/-- Membership of `x` at a slot: the `sub_any` (wildcard members) set when
`b` is true, the `subscribers` set otherwise. -/
def memK : Bool → Sub C → List SEdge → C → Bool
  | false, nd, p, x => memSb nd p x
  | true, nd, p, x => memWSb nd p x

theorem memK_empty (b : Bool) (p : List SEdge) (x : C) :
    memK b (Sub.empty : Sub C) p x = false := by
  cases b
  · exact memSb_empty p x
  · exact memWSb_empty p x

theorem memK_effect_sub (E : RegexEngine) (w mm : String) (segs : List String)
    (nd : Sub C) (c x : C) (p : List SEdge) (b : Bool) :
    memK b (subscribeRec E [w] [mm] none none nd segs c) p x = true ↔
      memK b nd p x = true ∨ (x = c ∧ subPath w mm segs = (p, b)) := by
  cases b
  · exact (sub_rec_effect E w mm segs nd c x p).1
  · exact (sub_rec_effect E w mm segs nd c x p).2

theorem memK_effect_unsub (E : RegexEngine) (w mm : String) (segs : List String)
    (nd : Sub C) (c x : C) (p : List SEdge) (b : Bool) (ht : Tidy nd) :
    memK b (unsubscribeRec E [w] [mm] none none nd segs c) p x = true ↔
      memK b nd p x = true ∧ ¬(x = c ∧ subPath w mm segs = (p, b)) := by
  cases b
  · exact (unsub_rec_effect E w mm segs nd c x p ht).1
  · exact (unsub_rec_effect E w mm segs nd c x p ht).2

theorem tidy_unsub_fold (E : RegexEngine) (w mm : String) (sep : Char) (c : C) :
    ∀ (ts : List String) (nd : Sub C), Tidy nd →
    Tidy (ts.foldl
      (fun n t => unsubscribeRec E [w] [mm] none none n (splitStr sep t) c) nd) := by
  intro ts
  induction ts with
  | nil => intro nd ht; exact ht
  | cons t ts ih =>
      intro nd ht
      exact ih _ (tidy_unsubscribeRec E w mm (splitStr sep t) nd c ht)

theorem memK_effect_unsub_fold (E : RegexEngine) (w mm : String) (sep : Char) :
    ∀ (ts : List String) (nd : Sub C) (c x : C) (p : List SEdge) (b : Bool),
    Tidy nd →
    (memK b (ts.foldl
        (fun n t => unsubscribeRec E [w] [mm] none none n (splitStr sep t) c) nd)
        p x = true ↔
      memK b nd p x = true
        ∧ ∀ t ∈ ts, ¬(x = c ∧ subPath w mm (splitStr sep t) = (p, b))) := by
  intro ts
  induction ts with
  | nil =>
      intro nd c x p b ht
      simp
  | cons t ts ih =>
      intro nd c x p b ht
      simp only [List.foldl_cons]
      rw [ih _ c x p b (tidy_unsubscribeRec E w mm (splitStr sep t) nd c ht),
        memK_effect_unsub E w mm (splitStr sep t) nd c x p b ht]
      constructor
      · rintro ⟨⟨ha, hb⟩, hc⟩
        refine ⟨ha, ?_⟩
        intro u hu
        rcases List.mem_cons.mp hu with h | h
        · subst h; exact hb
        · exact hc u h
      · rintro ⟨ha, hb⟩
        exact ⟨⟨ha, hb t (List.mem_cons_self t ts)⟩,
          fun u hu => hb u (List.mem_cons_of_mem t hu)⟩

/-- Inverse of `subPath` on well-placed patterns: rebuild the segment list
from the slot address. -/
def reconPath (w mm : String) : List SEdge → Bool → List String
  | [], false => []
  | [], true => [w]
  | .any :: p, b => mm :: reconPath w mm p b
  | .lit s :: p, b => s :: reconPath w mm p b

theorem recon_subPath (w mm : String) : ∀ segs, goodPat w segs = true →
    reconPath w mm (subPath w mm segs).1 (subPath w mm segs).2 = segs := by
  intro segs
  induction segs with
  | nil => intro _; simp [subPath, reconPath]
  | cons s rest ih =>
      intro hg
      by_cases hsw : s = w
      · subst hsw
        simp only [goodPat, eq_self_iff_true, if_true, List.isEmpty_iff] at hg
        subst hg
        simp [subPath, reconPath]
      · have hg' : goodPat w rest = true := by
          simpa [goodPat, hsw] using hg
        by_cases hsm : s = mm
        · subst hsm
          simp [subPath, hsw, reconPath, ih hg']
        · simp [subPath, hsw, hsm, reconPath, ih hg']

theorem subPath_inj_good {w mm : String} {s1 s2 : List String}
    (h1 : goodPat w s1 = true) (h2 : goodPat w s2 = true)
    (h : subPath w mm s1 = subPath w mm s2) : s1 = s2 := by
  have e1 := recon_subPath w mm s1 h1
  have e2 := recon_subPath w mm s2 h2
  rw [← e1, ← e2, h]

/-- Reachable states of a `SubMap` built with separator `sep`, wildcard `w`
and match-any token `mm`, no formula or regex prefix, where every subscribed
pattern places the wildcard only as its final segment. -/
inductive CReach (E : RegexEngine) (w mm : String) (sep : Char) :
    SubMapSt C → Prop where
  | init :
      CReach E w mm sep (((SubMapSt.new.setSeparator sep).setWildcard w).setMatchAny mm)
  | register (m : SubMapSt C) (c : C) : CReach E w mm sep m →
      CReach E w mm sep (m.registerClient c).2
  | subscribe (m : SubMapSt C) (t : String) (c : C) : CReach E w mm sep m →
      goodPat w (splitStr sep t) = true →
      CReach E w mm sep (m.subscribe E t c).2
  | unsubscribe (m : SubMapSt C) (t : String) (c : C) : CReach E w mm sep m →
      CReach E w mm sep (m.unsubscribe E t c).2
  | unsubscribeAll (m : SubMapSt C) (c : C) : CReach E w mm sep m →
      CReach E w mm sep (m.unsubscribeAll E c).2
  | unregister (m : SubMapSt C) (c : C) : CReach E w mm sep m →
      CReach E w mm sep (m.unregisterClient E c).2

/-- The reverse-index invariant: configuration pinned, clean trie,
duplicate-free reverse index with well-placed patterns, and exact
correspondence between trie memberships and recorded topics. -/
def RevInv (w mm : String) (sep : Char) (m : SubMapSt C) : Prop :=
  m.fpfx = none ∧ m.rpfx = none ∧ m.wildcard = [w] ∧ m.matchAny = [mm]
  ∧ m.separator = sep
  ∧ Tidy m.subscriptions
  ∧ (m.subscribedTopics.map fun p => p.1).Nodup
  ∧ (∀ p ∈ m.subscribedTopics, p.2.Nodup
      ∧ ∀ t ∈ p.2, goodPat w (splitStr sep t) = true)
  ∧ ∀ (x : C) (pth : List SEdge) (b : Bool),
      memK b m.subscriptions pth x = true ↔
        ∃ ts, getV m.subscribedTopics x = some ts ∧
          ∃ t ∈ ts, subPath w mm (splitStr sep t) = (pth, b)

theorem creach_inv (E : RegexEngine) (w mm : String) (sep : Char)
    {m : SubMapSt C} (h : CReach E w mm sep m) : RevInv w mm sep m := by
  induction h with
  | init =>
      show RevInv w mm sep ⟨Sub.empty, [], 0, sep, none, none, [mm], [w]⟩
      refine ⟨rfl, rfl, rfl, rfl, rfl, Tidy_empty, List.nodup_nil, ?_, ?_⟩
      · intro p hp
        exact absurd hp (List.not_mem_nil p)
      · intro x pth b
        rw [show (⟨Sub.empty, [], 0, sep, none, none, [mm], [w]⟩ :
            SubMapSt C).subscriptions = Sub.empty from rfl, memK_empty]
        simp [getV]
  | register m c hm ihm =>
      obtain ⟨hf, hr, hww, hma, hsep, htidy, hkeys, hent, hmain⟩ := id ihm
      simp only [SubMapSt.registerClient]
      cases hg : getV m.subscribedTopics c with
      | some ts => exact ihm
      | none =>
          refine ⟨hf, hr, hww, hma, hsep, htidy, keys_pushV_nodup hkeys hg, ?_, ?_⟩
          · intro p hp
            rcases List.mem_append.mp hp with h | h
            · exact hent p h
            · rw [List.mem_singleton] at h
              subst h
              exact ⟨List.nodup_nil, fun t ht => absurd ht (List.not_mem_nil t)⟩
          · intro x pth b
            by_cases hx : x = c
            · subst hx
              constructor
              · intro hmem
                rcases (hmain x pth b).mp hmem with ⟨ts, hts, hex⟩
                rw [hg] at hts
                exact absurd hts (by simp)
              · rintro ⟨ts, hts, t, htm, hsp⟩
                rw [show ({ m with
                    subscribedTopics := pushV m.subscribedTopics x [] } :
                    SubMapSt C).subscribedTopics
                    = pushV m.subscribedTopics x [] from rfl,
                  getV_pushV_eq hg] at hts
                obtain rfl := Option.some_inj.mp hts
                exact absurd htm (List.not_mem_nil t)
            · rw [show ({ m with
                  subscribedTopics := pushV m.subscribedTopics c [] } :
                  SubMapSt C).subscribedTopics
                  = pushV m.subscribedTopics c [] from rfl,
                getV_pushV_ne (Ne.symm hx)]
              exact hmain x pth b
  | subscribe m t c hm hgood ihm =>
      obtain ⟨hf, hr, hww, hma, hsep, htidy, hkeys, hent, hmain⟩ := id ihm
      simp only [SubMapSt.subscribe]
      cases hg : getV m.subscribedTopics c with
      | none => exact ihm
      | some ts =>
          by_cases hmem : t ∈ ts
          · simp only [if_pos hmem]
            exact ihm
          · simp only [if_neg hmem]
            have hts_nodup := (hent (c, ts) (getV_mem hg)).1
            have hts_good := (hent (c, ts) (getV_mem hg)).2
            refine ⟨hf, hr, hww, hma, hsep, ?_, ?_, ?_, ?_⟩
            · dsimp only
              rw [hf, hr, hww, hma]
              exact tidy_subscribeRec E w mm (splitStr m.separator t)
                m.subscriptions c htidy
            · dsimp only
              simpa [keys_updV_gen] using hkeys
            · dsimp only
              intro p hp
              rcases mem_updV_gen hp with h | h
              · exact hent p h
              · subst h
                refine ⟨insC_nodup hts_nodup, ?_⟩
                intro u hu
                rcases mem_insC.mp hu with h | h
                · exact hts_good u h
                · subst h
                  exact hgood
            · dsimp only
              intro x pth b
              rw [hf, hr, hww, hma, hsep,
                memK_effect_sub E w mm (splitStr sep t) m.subscriptions c x pth b,
                hmain x pth b]
              by_cases hx : x = c
              · subst hx
                rw [getV_updV_eq hg]
                constructor
                · rintro (⟨ts', hts', u, hu, hsp⟩ | ⟨-, hsp⟩)
                  · rw [hg] at hts'
                    obtain rfl := Option.some_inj.mp hts'
                    exact ⟨insC t ts, rfl, u, mem_insC.mpr (Or.inl hu), hsp⟩
                  · exact ⟨insC t ts, rfl, t, mem_insC.mpr (Or.inr rfl), hsp⟩
                · rintro ⟨ts', hts', u, hu, hsp⟩
                  obtain rfl := Option.some_inj.mp hts'
                  rcases mem_insC.mp hu with h | h
                  · exact Or.inl ⟨ts, hg, u, h, hsp⟩
                  · subst h
                    exact Or.inr ⟨rfl, hsp⟩
              · rw [getV_updV_ne (Ne.symm hx)]
                constructor
                · rintro (⟨ts', hts', hex⟩ | ⟨hxc, -⟩)
                  · exact ⟨ts', hts', hex⟩
                  · exact absurd hxc hx
                · rintro ⟨ts', hts', hex⟩
                  exact Or.inl ⟨ts', hts', hex⟩
  | unsubscribe m t c hm ihm =>
      obtain ⟨hf, hr, hww, hma, hsep, htidy, hkeys, hent, hmain⟩ := id ihm
      simp only [SubMapSt.unsubscribe]
      cases hg : getV m.subscribedTopics c with
      | none => exact ihm
      | some ts =>
          by_cases hmem : t ∈ ts
          · simp only [if_pos hmem]
            have hts_nodup := (hent (c, ts) (getV_mem hg)).1
            have hts_good := (hent (c, ts) (getV_mem hg)).2
            have hgt : goodPat w (splitStr sep t) = true := hts_good t hmem
            refine ⟨hf, hr, hww, hma, hsep, ?_, ?_, ?_, ?_⟩
            · dsimp only
              rw [hf, hr, hww, hma]
              exact tidy_unsubscribeRec E w mm (splitStr m.separator t)
                m.subscriptions c htidy
            · dsimp only
              simpa [keys_updV_gen] using hkeys
            · dsimp only
              intro p hp
              rcases mem_updV_gen hp with h | h
              · exact hent p h
              · subst h
                refine ⟨(ersC_sublist t ts).nodup hts_nodup, ?_⟩
                intro u hu
                exact hts_good u ((ersC_sublist t ts).subset hu)
            · dsimp only
              intro x pth b
              rw [hf, hr, hww, hma, hsep,
                memK_effect_unsub E w mm (splitStr sep t) m.subscriptions c x pth b
                  htidy,
                hmain x pth b]
              by_cases hx : x = c
              · subst hx
                rw [getV_updV_eq hg]
                constructor
                · rintro ⟨⟨ts', hts', u, hu, hsp⟩, hnot⟩
                  rw [hg] at hts'
                  obtain rfl := Option.some_inj.mp hts'
                  refine ⟨ersC t ts, rfl, u, ?_, hsp⟩
                  rw [mem_ersC hts_nodup]
                  refine ⟨hu, ?_⟩
                  intro hut
                  exact hnot ⟨rfl, hut ▸ hsp⟩
                · rintro ⟨ts', hts', u, hu, hsp⟩
                  obtain rfl := Option.some_inj.mp hts'
                  rw [mem_ersC hts_nodup] at hu
                  refine ⟨⟨ts, hg, u, hu.1, hsp⟩, ?_⟩
                  rintro ⟨-, hspt⟩
                  have hsegs : splitStr sep u = splitStr sep t :=
                    subPath_inj_good (hts_good u hu.1) hgt (hsp.trans hspt.symm)
                  exact hu.2 (splitStr_injective sep hsegs)
              · rw [getV_updV_ne (Ne.symm hx)]
                constructor
                · rintro ⟨⟨ts', hts', hex⟩, -⟩
                  exact ⟨ts', hts', hex⟩
                · rintro ⟨ts', hts', hex⟩
                  exact ⟨⟨ts', hts', hex⟩, fun hc => hx hc.1⟩
          · simp only [if_neg hmem]
            exact ihm
  | unsubscribeAll m c hm ihm =>
      obtain ⟨hf, hr, hww, hma, hsep, htidy, hkeys, hent, hmain⟩ := id ihm
      simp only [SubMapSt.unsubscribeAll]
      cases hg : getV m.subscribedTopics c with
      | none => exact ihm
      | some ts =>
          refine ⟨hf, hr, hww, hma, hsep, ?_, ?_, ?_, ?_⟩
          · dsimp only
            rw [hf, hr, hww, hma, hsep]
            exact tidy_unsub_fold E w mm sep c ts m.subscriptions htidy
          · dsimp only
            simpa [keys_updV_gen] using hkeys
          · dsimp only
            intro p hp
            rcases mem_updV_gen hp with h | h
            · exact hent p h
            · subst h
              exact ⟨List.nodup_nil, fun u hu => absurd hu (List.not_mem_nil u)⟩
          · dsimp only
            intro x pth b
            rw [hf, hr, hww, hma, hsep,
              memK_effect_unsub_fold E w mm sep ts m.subscriptions c x pth b htidy,
              hmain x pth b]
            by_cases hx : x = c
            · subst hx
              rw [getV_updV_eq hg]
              constructor
              · rintro ⟨⟨ts', hts', u, hu, hsp⟩, hall⟩
                rw [hg] at hts'
                obtain rfl := Option.some_inj.mp hts'
                exact absurd (⟨rfl, hsp⟩ : _ ∧ _) (hall u hu)
              · rintro ⟨ts', hts', u, hu, hsp⟩
                obtain rfl := Option.some_inj.mp hts'
                exact absurd hu (List.not_mem_nil u)
            · rw [getV_updV_ne (Ne.symm hx)]
              constructor
              · rintro ⟨⟨ts', hts', hex⟩, -⟩
                exact ⟨ts', hts', hex⟩
              · rintro ⟨ts', hts', hex⟩
                exact ⟨⟨ts', hts', hex⟩, fun u hu hc => hx hc.1⟩
  | unregister m c hm ihm =>
      obtain ⟨hf, hr, hww, hma, hsep, htidy, hkeys, hent, hmain⟩ := id ihm
      simp only [SubMapSt.unregisterClient]
      cases hg : getV m.subscribedTopics c with
      | none => exact ihm
      | some ts =>
          refine ⟨hf, hr, hww, hma, hsep, ?_, ?_, ?_, ?_⟩
          · dsimp only
            rw [hf, hr, hww, hma, hsep]
            exact tidy_unsub_fold E w mm sep c ts m.subscriptions htidy
          · dsimp only
            exact ((eraseV_sublist m.subscribedTopics c).map _).nodup hkeys
          · dsimp only
            intro p hp
            exact hent p ((eraseV_sublist m.subscribedTopics c).subset hp)
          · dsimp only
            intro x pth b
            rw [hf, hr, hww, hma, hsep,
              memK_effect_unsub_fold E w mm sep ts m.subscriptions c x pth b htidy,
              hmain x pth b]
            by_cases hx : x = c
            · subst hx
              rw [getV_eraseV_self hkeys]
              constructor
              · rintro ⟨⟨ts', hts', u, hu, hsp⟩, hall⟩
                rw [hg] at hts'
                obtain rfl := Option.some_inj.mp hts'
                exact absurd (⟨rfl, hsp⟩ : _ ∧ _) (hall u hu)
              · rintro ⟨ts', hts', -⟩
                exact absurd hts' (by simp)
            · rw [getV_eraseV_ne (Ne.symm hx)]
              constructor
              · rintro ⟨⟨ts', hts', hex⟩, -⟩
                exact ⟨ts', hts', hex⟩
              · rintro ⟨ts', hts', hex⟩
                exact ⟨⟨ts', hts', hex⟩, fun u hu hc => hx hc.1⟩

end RevIndexInv

section RevIndexClaim

variable {C : Type} [DecidableEq C]

/-- A `SubMap` with formula prefix `!`, its sole client subscribed to the
pattern `!x` (whose formula segment fails to parse). -/
def c3xState : SubMapSt String :=
  (((SubMapSt.new.setFormulaPfx "!").registerClient "c1").2.subscribe noRegex
    "!x" "c1").2

/-- Counterexample to claim C3 as stated: with a formula prefix configured,
subscribing to `!x` succeeds and records the topic in the reverse index, but
the formula segment `x` fails to parse, so `subscribe_rec` aborts and the
trie stays empty — no node's members or wildcard-members set contains the
client, breaking the forward direction of the reverse-index correspondence. -/
theorem c3_formula_topic_unindexed :
    (((SubMapSt.new.setFormulaPfx "!").registerClient "c1").2.subscribe noRegex
        "!x" "c1").1 = true
    ∧ c3xState.listTopics "c1" = ["!x"]
    ∧ c3xState.subscriptions = Sub.empty
    ∧ ∀ (pth : List SEdge) (b : Bool),
        memK b c3xState.subscriptions pth "c1" = false := by
  refine ⟨rfl, rfl, rfl, ?_⟩
  intro pth b
  rw [show c3xState.subscriptions = Sub.empty from rfl]
  exact memK_empty b pth "c1"

/-- **C3** (amended): in every state reachable with no formula or regex
prefix, a fixed separator, singleton wildcard and match-any tokens, and
wildcard tokens used only as final pattern segments, the reverse index is
consistent: for every client `x` and topic `t` recorded in
`subscribed_topics[x]`, walking the trie along `t`'s segments reaches the
slot addressed by `subPath` and finds `x` in its members set (wildcard
members when the pattern ends with the wildcard token); conversely every
occurrence of `x` in any node's members or wildcard-members set is justified
by some recorded topic of `x`. -/
theorem c3_reverse_index_amended (E : RegexEngine) (w mm : String) (sep : Char)
    {m : SubMapSt C} (h : CReach E w mm sep m) :
    (∀ (x : C) (ts : List String) (t : String),
        getV m.subscribedTopics x = some ts → t ∈ ts →
        memK (subPath w mm (splitStr sep t)).2 m.subscriptions
          (subPath w mm (splitStr sep t)).1 x = true)
    ∧ ∀ (x : C) (pth : List SEdge) (b : Bool),
        memK b m.subscriptions pth x = true →
        ∃ ts, getV m.subscribedTopics x = some ts ∧
          ∃ t ∈ ts, subPath w mm (splitStr sep t) = (pth, b) := by
  obtain ⟨-, -, -, -, -, -, -, -, hmain⟩ := creach_inv E w mm sep h
  constructor
  · intro x ts t hts htm
    exact (hmain x _ _).mpr ⟨ts, hts, t, htm, rfl⟩
  · intro x pth b hmem
    exact (hmain x pth b).mp hmem

/-- Witness for C3: the default-configured map with client `c1` subscribed to
`a/*`; the forward direction places `c1` in the wildcard-members set of the
trie slot `[lit a]`. -/
theorem c3_reverse_index_amended_witness :
    memK (subPath "*" "?" (splitStr '/' "a/*")).2
      ((((((SubMapSt.new.setSeparator '/').setWildcard "*").setMatchAny
        "?").registerClient "c1").2.subscribe noRegex "a/*" "c1").2).subscriptions
      (subPath "*" "?" (splitStr '/' "a/*")).1 "c1" = true :=
  (c3_reverse_index_amended noRegex "*" "?" '/'
      (CReach.subscribe _ "a/*" "c1" (CReach.register _ "c1" CReach.init)
        (by decide))).1
    "c1" ["a/*"] "a/*" rfl (by decide)

end RevIndexClaim

end Submap
